import Mathlib

/-!
# Verification of the TSP metaheuristic core (GA + ACS engines)

Shallow embedding of the optimization core of the `computational-intelligence`
repository: the TSP cost model (`src/problems/tsp/tsp_problem.py`,
`tsp_instance.py`), the GA operator strategies
(`src/operators/{selection,crossover,mutation,succession}/*.py`), the GA
iteration engine (`src/algorithms/genetic_algorithm.py`) and the ACS engine
(`src/algorithms/acs_algorithm.py`).

Embedding conventions:
* Python floats are modelled as exact rationals (`ℚ`); the properties checked
  here are order/arithmetic-structural and do not depend on IEEE rounding.
* Python lists are Lean `List`s; in-place index assignment `xs[i] = v` is
  `List.set`, slice assignment is modelled by its documented list result.
* The dense pheromone/heuristic matrices are embedded as index functions
  `ℕ → ℕ → ℚ`; `P[i][j] = v` becomes a pointwise functional update.
* Randomness: every call into a random source is modelled by threading the
  sequence of drawn outcomes explicitly.  The GA engine owns a seeded
  `random.Random(seed)` (its draws form one stream), while the operator
  modules call the module-level `random` functions (a second, global stream);
  the embedding keeps these two streams separate exactly as the code does.
* `raise` of an exception is an `Except.error` / `Option.none` result.
* Python's stable `list.sort(key=...)` is embedded as a stable insertion
  sort (`sortByCost`), and `min(xs, key=...)` as a first-minimum fold.
-/

/-! ## Python numeric helpers -/

/-- Python `int(x)` for a float/rational: truncation toward zero. -/
def pyInt (x : ℚ) : ℤ := if 0 ≤ x then ⌊x⌋ else ⌈x⌉

/-- Python `round(x)` (banker's rounding, half to even). -/
def pyRound (x : ℚ) : ℤ :=
  let f := ⌊x⌋
  let r := x - (f : ℚ)
  if r < 1/2 then f else if 1/2 < r then f + 1 else if f % 2 = 0 then f else f + 1

/-- Python `min(xs)` on a nonempty list of costs: first minimal value.
    (`min` of an empty sequence raises; the engines only call it on nonempty
    cost lists, and the default 0 is never reached in the theorems below.) -/
def minCost : List ℚ → ℚ
  | [] => 0
  | c :: cs => cs.foldl (fun a b => if b < a then b else a) c

/-- Outcome model of `random.sample(range(n), 2)`: raises `ValueError`
    (here `none`) when `n < 2`; otherwise returns two distinct indices
    `< n`, the pair being determined by the drawn outcome `d`. -/
def pySample2 (n : ℕ) (d : ℕ × ℕ) : Option (ℕ × ℕ) :=
  if 2 ≤ n then
    let i := d.1 % n
    let j0 := d.2 % (n - 1)
    some (i, if j0 < i then j0 else j0 + 1)
  else none

/-! ## Stable sort by cost (embeds Python's stable `sort(key=lambda x: x[1])`) -/

/-- Insert a pair into a cost-sorted list, after all strictly smaller and
    before all equal-or-larger keys (stable position for a left-to-right
    insertion sort). -/
def insertByCost {α : Type} (x : α × ℚ) : List (α × ℚ) → List (α × ℚ)
  | [] => [x]
  | y :: ys => if x.2 ≤ y.2 then x :: y :: ys else y :: insertByCost x ys

/-- Stable sort of `(individual, cost)` pairs by ascending cost. -/
def sortByCost {α : Type} : List (α × ℚ) → List (α × ℚ)
  | [] => []
  | x :: xs => insertByCost x (sortByCost xs)

/-- Insertion step of the plain stable ascending sort on costs. -/
def insertCostQ (c : ℚ) : List ℚ → List ℚ
  | [] => [c]
  | y :: ys => if c ≤ y then c :: y :: ys else y :: insertCostQ c ys

/-- Plain stable ascending sort of a cost list. -/
def sortCosts : List ℚ → List ℚ
  | [] => []
  | c :: cs => insertCostQ c (sortCosts cs)

/-! ## TSP cost model (`tsp_problem.py`, `tsp_instance.py`) -/

/-- Embeds `TSPInstance.get_distance_matrix`: returns the matrix only when
    `has_loaded` is set, otherwise `None`. -/
def getDistanceMatrix (hasLoaded : Bool) (dm : List (List ℚ)) : Option (List (List ℚ)) :=
  if hasLoaded then some dm else none

/-- The cyclic tour cost `sum(dist[t[i]][t[(i+1) % len(t)]] for i in range(len(t)))`
    from `TSPProblem.evaluate`. -/
def tourCost (dist : List (List ℚ)) (t : List ℕ) : ℚ :=
  ((List.range t.length).map
    (fun i => (dist.getD (t.getD i 0) []).getD (t.getD ((i + 1) % t.length) 0) 0)).sum

/-- Embeds `TSPProblem.evaluate`: fetches the distance matrix and raises
    `RuntimeError("Distance matrix not loaded.")` when it is falsy
    (`None`, or the empty list); otherwise returns the cyclic tour cost. -/
def tspEvaluate (dist? : Option (List (List ℚ))) (t : List ℕ) : Except String ℚ :=
  match dist? with
  | none => .error "Distance matrix not loaded."
  | some dist =>
      if dist = [] then .error "Distance matrix not loaded."
      else .ok (tourCost dist t)

/-! ## Mutation operators (`swap.py`, `insert.py`) -/

/-- Embeds `SwapMutation.mutate`: returns the individual unchanged when it has
    fewer than `_MIN_GENES = 2` elements; otherwise exchanges the two
    sampled positions.  `d` is the drawn `random.sample` outcome. -/
def swapMutate (ind : List ℕ) (d : ℕ × ℕ) : List ℕ :=
  if ind.length < 2 then ind
  else
    match pySample2 ind.length d with
    | some (i, j) => (ind.set i (ind.getD j 0)).set j (ind.getD i 0)
    | none => ind

/-- Embeds `InsertMutation.mutate`: samples two distinct positions with no length
    guard — `random.sample` raises `ValueError` (`none`) when the individual
    has fewer than two elements; otherwise pops position `i` and re-inserts
    the gene at position `j`. -/
def insertMutate (ind : List ℕ) (d : ℕ × ℕ) : Option (List ℕ) :=
  match pySample2 ind.length d with
  | some (i, j) => some ((ind.eraseIdx i).insertIdx j (ind.getD i 0))
  | none => none

/-! ## Succession operators (`elitist.py`, `steady_state.py`) -/

/-- Embeds `ElitistSuccession.replace`: sort parent and offspring pairs by cost,
    keep `max(1, int(elite_rate * population_size))` best parents and fill
    with the best offspring. -/
def elitistReplace (eliteRate : ℚ) (parents offspring : List (List ℕ))
    (parentCosts offspringCosts : List ℚ) : List (List ℕ) × List ℚ :=
  let populationSize := parents.length
  let eliteCount := (max 1 (pyInt (eliteRate * populationSize))).toNat
  let parentPairs := sortByCost (parents.zip parentCosts)
  let offspringPairs := sortByCost (offspring.zip offspringCosts)
  let survivors := parentPairs.take eliteCount ++ offspringPairs.take (populationSize - eliteCount)
  (survivors.map (·.1), survivors.map (·.2))

/-- Embeds `SteadyStateSuccession.replace`: keep the `N - replace_count` best
    parents (`replace_count = max(1, int(replacement_rate * N))`) and inject
    the `replace_count` best offspring. -/
def steadyStateReplace (replacementRate : ℚ) (parents offspring : List (List ℕ))
    (parentCosts offspringCosts : List ℚ) : List (List ℕ) × List ℚ :=
  let populationSize := parents.length
  let replaceCount := (max 1 (pyInt (replacementRate * populationSize))).toNat
  let parentPairs := sortByCost (parents.zip parentCosts)
  let offspringPairs := sortByCost (offspring.zip offspringCosts)
  let survivors := parentPairs.take (populationSize - replaceCount) ++ offspringPairs.take replaceCount
  (survivors.map (·.1), survivors.map (·.2))

/-! ## Best-cost bookkeeping shared by both engines
(`GeneticAlgorithm._update_best`, `ACSAlgorithm._update_best`) -/

/-- Embeds the shared `_update_best`: lower the running best only on strict improvement.
    The initial `best_cost = float("inf")` is the top element of `WithTop ℚ`. -/
def updateBest (best : WithTop ℚ) (cost : ℚ) : WithTop ℚ :=
  if (cost : WithTop ℚ) < best then (cost : WithTop ℚ) else best

/-- The best-cost field of the History samples appended by the run loop:
    one `updateBest` fold step per generation/iteration, each appended value
    being the running best after that iteration's minimum cost `c` was seen. -/
def bestCostTrace (best : WithTop ℚ) : List ℚ → List (WithTop ℚ)
  | [] => []
  | c :: cs => updateBest best c :: bestCostTrace (updateBest best c) cs

/-! ## ACS pheromone matrix updates (`acs_algorithm.py`) -/

/-- Pointwise update `P[i][j] = v` of a matrix embedded as an index function. -/
def matSet (P : ℕ → ℕ → ℚ) (i j : ℕ) (v : ℚ) : ℕ → ℕ → ℚ :=
  fun a b => if a = i ∧ b = j then v else P a b

/-- Embeds `ACSAlgorithm._local_update`: writes only the traversed direction
    `pheromone[i][j] = (1 - phi) * pheromone[i][j] + phi * 1.0`. -/
def localUpdate (phi : ℚ) (P : ℕ → ℕ → ℚ) (i j : ℕ) : ℕ → ℕ → ℚ :=
  matSet P i j ((1 - phi) * P i j + phi * 1)

/-- One edge of `ACSAlgorithm._global_update`: both directions receive
    `(1 - rho) * pheromone + rho * (1 / cost)`. -/
def globalUpdateEdge (rho deposit : ℚ) (P : ℕ → ℕ → ℚ) (a b : ℕ) : ℕ → ℕ → ℚ :=
  let updated := (1 - rho) * P a b + rho * deposit
  matSet (matSet P a b updated) b a updated

/-- Embeds `ACSAlgorithm._global_update`: apply the edge update along the cyclic
    edges `zip(route, route[1:] + [route[0]])` of the iteration-best route. -/
def globalUpdate (rho cost : ℚ) (P : ℕ → ℕ → ℚ) (route : List ℕ) : ℕ → ℕ → ℚ :=
  (route.zip (route.drop 1 ++ route.take 1)).foldl
    (fun Q e => globalUpdateEdge rho (1 / cost) Q e.1 e.2) P

/-- Embeds `_initialize_pheromone_and_heuristic`: pheromone starts all 1.0. -/
def initPheromone : ℕ → ℕ → ℚ := fun _ _ => 1

/-- Matrix symmetry `P[i][j] == P[j][i]` for all i, j. -/
def MatSymm (P : ℕ → ℕ → ℚ) : Prop := ∀ i j, P i j = P j i

/-! ## Selection (`tournament.py`) and crossover (`ox.py`) -/

/-- Python `min(participants, key=lambda x: x[1])`: first pair with minimal
    cost (empty input raises; default never reached in the theorems). -/
def minByCost : List (List ℕ × ℚ) → List ℕ × ℚ
  | [] => ([], 0)
  | x :: xs => xs.foldl (fun a y => if y.2 < a.2 then y else a) x

/-- Embeds `TournamentSelection.select`: `k = max(2, int(len(population) * rate))`
    individuals are sampled by the module-level `random.sample` (the drawn
    outcome is the next `k` indices of the global stream `g`), and the
    lowest-cost participant wins.  Returns the winner and the rest of the
    global stream. -/
def tournamentSelect (rate : ℚ) (population : List (List ℕ)) (costs : List ℚ)
    (g : List ℕ) : List ℕ × List ℕ :=
  let k := max 2 (pyInt (population.length * rate)).toNat
  let participants := (g.take k).map (fun i => (population.getD i [], costs.getD i 0))
  ((minByCost participants).1, g.drop k)

/-- Embeds `child[a:b] = parent1[a:b]` on a fresh `[None] * size` list:
    slice assignment of the window at positions `a ≤ i < b`. -/
def oxWindowList (a b : ℕ) (p1 : List ℕ) : List (Option ℕ) :=
  List.replicate a none ++ ((p1.take b).drop a).map some ++
    List.replicate (p1.length - b) none

/-- The fill loop of `OrderCrossover`: left-to-right, each `None` slot takes
    the next remaining fill value.  (When the fill list is exhausted the code
    would raise `IndexError`; the slot is left `None` here, a case that the
    permutation hypotheses of the theorems below exclude.) -/
def fillNones : List (Option ℕ) → List ℕ → List (Option ℕ)
  | [], _ => []
  | none :: rest, f :: fs => some f :: fillNones rest fs
  | none :: rest, [] => none :: fillNones rest []
  | some x :: rest, fs => some x :: fillNones rest fs

/-- One OX child: copy `p1[a:b]` verbatim, fill the remaining positions
    left-to-right with `p2`'s elements not already in the child, then drop
    any `None` left (`[x for x in child if x is not None]`). -/
def oxChild (a b : ℕ) (p1 p2 : List ℕ) : List ℕ :=
  let window := (p1.take b).drop a
  let fill := p2.filter (fun x => !(window.contains x))
  (fillNones (oxWindowList a b p1) fill).filterMap id

/-- Embeds `OrderCrossover.crossover`: the two cut points come from the module-level
    `random.sample(range(size), 2)` (global stream), sorted ascending. -/
def oxCrossover (p1 p2 : List ℕ) (g : List ℕ) : (List ℕ × List ℕ) × List ℕ :=
  let d1 := g.headD 0
  let d2 := (g.drop 1).headD 0
  let c := match pySample2 p1.length (d1, d2) with
    | some (i, j) => (min i j, max i j)
    | none => (0, 0)
  ((oxChild c.1 c.2 p1 p2, oxChild c.1 c.2 p2 p1), g.drop 2)

/-! ## GA engine generation loop (`genetic_algorithm.py`, `run`)

The engine threads two distinct random sources exactly as the code does:
`ecoins` is the stream of `self._random()` outcomes of the engine's seeded
`random.Random(seed)` (the crossover/mutation activation coin flips), while
`g` is the stream of outcomes of the module-level `random` functions that
the operator classes call (`random.sample` in `TournamentSelection.select`,
`OrderCrossover.crossover`, `SwapMutation.mutate`, ...). -/

/-- Signature of `selection.select` with its global-stream consumption. -/
abbrev SelectFn := List (List ℕ) → List ℚ → List ℕ → List ℕ × List ℕ

/-- Signature of `crossover.crossover` with its global-stream consumption. -/
abbrev CrossFn := List ℕ → List ℕ → List ℕ → (List ℕ × List ℕ) × List ℕ

/-- Signature of `mutation.mutate` with its global-stream consumption. -/
abbrev MutFn := List ℕ → List ℕ → List ℕ × List ℕ

/-- The `while len(offspring) < self.population_size` loop: select two
    parents, apply crossover with probability `crossover_rate` (engine coin),
    mutate each child with probability `mutation_rate` (engine coins), and
    extend the offspring list by the pair.  Returns the offspring plus the
    remaining engine and global streams. -/
def gaOffspringLoop (populationSize : ℕ) (crossoverRate mutationRate : ℚ)
    (sel : SelectFn) (cx : CrossFn) (mu : MutFn)
    (population : List (List ℕ)) (costs : List ℚ) :
    ℕ → List ℚ → List ℕ → List (List ℕ) → List (List ℕ) × List ℚ × List ℕ
  | 0, ecoins, g, acc => (acc, ecoins, g)
  | fuel + 1, ecoins, g, acc =>
    if acc.length < populationSize then
      let s1 := sel population costs g
      let s2 := sel population costs s1.2
      let cross := if ecoins.headD 1 < crossoverRate then cx s1.1 s2.1 s2.2
        else ((s1.1, s2.1), s2.2)
      let m1 := if (ecoins.drop 1).headD 1 < mutationRate then mu cross.1.1 cross.2
        else (cross.1.1, cross.2)
      let m2 := if (ecoins.drop 2).headD 1 < mutationRate then mu cross.1.2 m1.2
        else (cross.1.2, m1.2)
      gaOffspringLoop populationSize crossoverRate mutationRate sel cx mu
        population costs fuel (ecoins.drop 3) m2.2 (acc ++ [m1.1, m2.1])
    else (acc, ecoins, g)

/-- One generation of `GeneticAlgorithm.run`: build the offspring, evaluate
    them, and call the succession strategy to produce the next population
    with its costs. -/
def gaGeneration (populationSize : ℕ) (crossoverRate mutationRate : ℚ)
    (sel : SelectFn) (cx : CrossFn) (mu : MutFn) (evalTour : List ℕ → ℚ)
    (succReplace : List (List ℕ) → List (List ℕ) → List ℚ → List ℚ →
      List (List ℕ) × List ℚ)
    (population : List (List ℕ)) (costs : List ℚ) (ecoins : List ℚ) (g : List ℕ) :
    List (List ℕ) × List ℚ :=
  let off := gaOffspringLoop populationSize crossoverRate mutationRate sel cx mu
    population costs populationSize ecoins g []
  let offspringCosts := off.1.map evalTour
  succReplace population off.1 costs offspringCosts

/-- Embeds `SwapMutation.mutate` wired to the global stream: consumes two drawn
    numbers for the `random.sample` outcome. -/
def swapMutateG : MutFn := fun ind g =>
  (swapMutate ind (g.headD 0, (g.drop 1).headD 0), g.drop 2)

/-- The linear cost function used as the injected `problem.evaluate` in the
    concrete GA scenarios (the engine is generic in the problem; the repo's
    own GA tests use a `DummyProblem` with a positional cost in the same
    way): `cost [a, b, c, d] = a + 2*b + 3*c + 4*d`. -/
def posWeightedCost (t : List ℕ) : ℚ :=
  ((t.zip [1, 2, 3, 4]).map (fun p => (p.1 : ℚ) * p.2)).sum

/-! ## ACS route construction (`acs_algorithm.py`, `_build_route` /
`_choose_next_city`)

The decision rule ranks unvisited cities by the weight
`pheromone[current][j] ** alpha * heuristic[current][j] ** beta`.  The float
powers are not exactly representable; the weight of city `j` at a given step
is abstracted as a rational-valued function `w`, which also captures the
fact that the pheromone matrix (and hence the weight) changes between steps
through the local updates. -/

/-- Python `max(unvisited, key=w)`: first element with maximal weight. -/
def maxByWeight (w : ℕ → ℚ) : List ℕ → ℕ
  | [] => 0
  | x :: xs => xs.foldl (fun a y => if w a < w y then y else a) x

/-- The exploration loop of `_choose_next_city`: accumulate `w j / total`
    and return the first city whose cumulative probability reaches the
    drawn `r`; `none` when the loop falls through. -/
def rouletteLoop (w : ℕ → ℚ) (total r : ℚ) : List ℕ → ℚ → Option ℕ
  | [], _ => none
  | j :: js, cum =>
      let cum' := cum + w j / total
      if r ≤ cum' then some j else rouletteLoop w total r js cum'

/-- Embeds `ACSAlgorithm._choose_next_city`: exploit (arg-max) when the
    drawn `q ≤ q0`, otherwise roulette-sample by weight, with a uniform
    random fallback (`rng.choice`, outcome `choiceIdx`) when all weights
    are zero and `unvisited[-1]` when the roulette loop falls through. -/
def chooseNextCity (q q0 : ℚ) (w : ℕ → ℚ) (r : ℚ) (choiceIdx : ℕ)
    (unvisited : List ℕ) : ℕ :=
  if q ≤ q0 then maxByWeight w unvisited
  else
    let total := (unvisited.map w).sum
    if total = 0 then unvisited.getD (choiceIdx % max unvisited.length 1) 0
    else
      match rouletteLoop w total r unvisited 0 with
      | some j => j
      | none => (unvisited.getLast?).getD 0

/-- Per-step chooser: step counter, current city, unvisited list. -/
abbrev ChooseFn := ℕ → ℕ → List ℕ → ℕ

/-- The `while unvisited:` loop of `_build_route`: choose a next city,
    append it and remove it from the unvisited pool.  The fuel equals the
    size of the unvisited pool, so it never runs out. -/
def buildRouteAux (choose : ChooseFn) : ℕ → ℕ → List ℕ → List ℕ
  | 0, _, _ => []
  | fuel + 1, current, unvisited =>
    if unvisited.isEmpty then []
    else
      let nxt := choose fuel current unvisited
      nxt :: buildRouteAux choose fuel nxt (unvisited.erase nxt)

/-- Embeds `ACSAlgorithm._build_route`: start from the drawn city, then
    repeatedly extend with a chosen unvisited city. -/
def buildRoute (n start : ℕ) (choose : ChooseFn) : List ℕ :=
  let unvisited := (List.range n).erase start
  start :: buildRouteAux choose unvisited.length start unvisited

/-! ## Cycle crossover (`cx.py`) -/

/-- The index step of the CX inner loop:
    `value = parent2[idx]; idx = parent1.index(value)`. -/
def cxStep (p1 p2 : List ℕ) (idx : ℕ) : ℕ := p1.indexOf (p2.getD idx 0)

/-- The `while idx != start` loop of `CycleCrossover`, collecting the cycle
    indices after `start`.  `none` models divergence / the `ValueError` of
    `list.index` (impossible for permutation parents, as proved below). -/
def cxCycleAux (p1 p2 : List ℕ) (start : ℕ) : ℕ → ℕ → Option (List ℕ)
  | 0, _ => none
  | fuel + 1, idx =>
      if idx = start then some []
      else
        match cxCycleAux p1 p2 start fuel (cxStep p1 p2 idx) with
        | some rest => some (idx :: rest)
        | none => none

/-- One discovered cycle: `start` followed by the indices collected by the
    inner loop starting from `parent1.index(parent2[start])`. -/
def cxCycle (p1 p2 : List ℕ) (start fuel : ℕ) : Option (List ℕ) :=
  (cxCycleAux p1 p2 start fuel (cxStep p1 p2 start)).map (start :: ·)

/-- The `while remaining:` loop of `CycleCrossover.crossover`: pop a start
    index (`set.pop`, modelled as the first of the remaining list), discover
    its cycle, copy `parent1`'s values at every cycle index into the child,
    and drop the cycle from the remaining pool (`set.remove`; for
    permutation parents the discovered cycle always lies inside the pool,
    so removal never raises). -/
def cxOuter (p1 p2 : List ℕ) : ℕ → List ℕ → List (Option ℕ) → Option (List (Option ℕ))
  | _, [], child => some child
  | 0, _ :: _, _ => none
  | fuel + 1, start :: rem, child =>
    match cxCycle p1 p2 start (p1.length + 1) with
    | none => none
    | some cyc =>
        cxOuter p1 p2 fuel ((start :: rem).filter (fun i => !(cyc.contains i)))
          (cyc.foldl (fun ch i => ch.set i (some (p1.getD i 0))) child)

/-- One CX child: run the outer loop over all indices, then fill any `None`
    slot from `parent2` and collect the values
    (`[x for x in child if x is not None]`). -/
def cxChild (p1 p2 : List ℕ) : Option (List ℕ) :=
  match cxOuter p1 p2 p1.length (List.range p1.length)
      (List.replicate p1.length none) with
  | none => none
  | some child =>
      some ((List.range p1.length).map (fun i => (child.getD i none).getD (p2.getD i 0)))

/-- Embeds `CycleCrossover.crossover`: the two children `cx(p1, p2)` and
    `cx(p2, p1)`. -/
def cxCrossover (p1 p2 : List ℕ) : Option (List ℕ) × Option (List ℕ) :=
  (cxChild p1 p2, cxChild p2 p1)

/-- Modelled from the claim's words (for comparison with the code): a cycle
    crossover whose source parent alternates per discovered cycle — the
    first cycle is copied from `parent1`, the next from `parent2`, and so
    on.  Identical to `cxOuter` except for the alternation flag. -/
def cxAlternatingOuter (p1 p2 : List ℕ) :
    ℕ → Bool → List ℕ → List (Option ℕ) → Option (List (Option ℕ))
  | _, _, [], child => some child
  | 0, _, _ :: _, _ => none
  | fuel + 1, fromP1, start :: rem, child =>
    match cxCycle p1 p2 start (p1.length + 1) with
    | none => none
    | some cyc =>
        cxAlternatingOuter p1 p2 fuel (!fromP1)
          ((start :: rem).filter (fun i => !(cyc.contains i)))
          (cyc.foldl
            (fun ch i => ch.set i (some ((if fromP1 then p1 else p2).getD i 0))) child)

/-- The alternating-CX child built from the claim's description. -/
def cxAlternatingChild (p1 p2 : List ℕ) : Option (List ℕ) :=
  match cxAlternatingOuter p1 p2 p1.length true (List.range p1.length)
      (List.replicate p1.length none) with
  | none => none
  | some child =>
      some ((List.range p1.length).map (fun i => (child.getD i none).getD (p2.getD i 0)))

/-! ## Partially mapped crossover (`pmx.py`) -/

/-- The index step of the PMX chase:
    `idx = parent2.index(parent1[pos])`. -/
def pmxStep (p1 p2 : List ℕ) (pos : ℕ) : ℕ := p2.indexOf (p1.getD pos 0)

/-- The `while True:` chase of `PartiallyMappedCrossover`: follow the
    `parent2 → parent1` mapping until an empty child slot is found and
    return that slot.  `none` models divergence (never reached for
    permutation parents). -/
def pmxChase (p1 p2 : List ℕ) (child : List (Option ℕ)) : ℕ → ℕ → Option ℕ
  | 0, _ => none
  | fuel + 1, pos =>
      let idx := pmxStep p1 p2 pos
      if child.getD idx none = none then some idx
      else pmxChase p1 p2 child fuel idx

/-- The `for i in range(a, b)` placement loop of PMX: for each window
    position whose `parent2` value is not yet in the child, chase the
    mapping and place the value at the discovered slot. -/
def pmxPhase (p1 p2 : List ℕ) : List ℕ → List (Option ℕ) → Option (List (Option ℕ))
  | [], child => some child
  | i :: is, child =>
      if child.contains (some (p2.getD i 0)) then pmxPhase p1 p2 is child
      else
        match pmxChase p1 p2 child (p1.length + 1) i with
        | some idx => pmxPhase p1 p2 is (child.set idx (some (p2.getD i 0)))
        | none => none

/-- One PMX child: copy the window `p1[a:b]`, run the placement loop over
    the window indices, then fill the remaining slots from `parent2` and
    collect the values. -/
def pmxChild (a b : ℕ) (p1 p2 : List ℕ) : Option (List ℕ) :=
  match pmxPhase p1 p2 (List.range' a (b - a)) (oxWindowList a b p1) with
  | none => none
  | some child =>
      some ((List.range p1.length).map (fun i => (child.getD i none).getD (p2.getD i 0)))

/-! ## History bookkeeping of one GA iteration -/

/-- The best-cost value appended to `history` by one iteration of
    `GeneticAlgorithm.run`: `_update_best(min(costs), now)` followed by
    `history.append((elapsed_ms, self.best_cost))`. -/
def gaHistoryAppendBest (prevBest : WithTop ℚ) (newCosts : List ℚ) : WithTop ℚ :=
  updateBest prevBest (minCost newCosts)

/-! ## Concrete instances used by the scenario theorems -/

/-- The 4-city uniform-cost distance matrix with `D[i][j] = 1` for `i ≠ j`. -/
def onesMatrix4 : List (List ℚ) := [[0,1,1,1],[1,0,1,1],[1,1,0,1],[1,1,1,0]]

/-- Tournament selection with rate 0.5, wired to the global stream. -/
def tournamentSelG : SelectFn := fun pop costs g => tournamentSelect (1/2) pop costs g

/-- The initial population of the concrete GA determinism scenario (as
    produced by the seeded initial shuffles, hence identical for two engines
    constructed with the same seed). -/
def gaPopulationC1 : List (List ℕ) := [[0,1,2,3], [0,2,1,3]]

/-- Its evaluated costs under the injected linear cost function. -/
def gaCostsC1 : List ℚ := gaPopulationC1.map posWeightedCost

/-- One full generation of `GeneticAlgorithm.run` in the concrete scenario:
    population size 2, `crossover_rate = 0`, `mutation_rate = 1`, tournament
    selection, OX crossover, swap mutation, elitist succession (rate 0.5).
    The engine's own seeded stream contributes the coin flips `[1/2, 1/2, 1/2]`
    (identical for equal seeds); `g` is the module-level `random` stream the
    operators draw from. -/
def gaGenerationC1 (g : List ℕ) : List (List ℕ) × List ℚ :=
  gaGeneration 2 0 1 tournamentSelG oxCrossover swapMutateG posWeightedCost
    (elitistReplace (1/2)) gaPopulationC1 gaCostsC1 [1/2, 1/2, 1/2] g

/-- The best-cost value this generation appends to the History in the
    concrete scenario (the engine seeds `best_cost` with the initial
    population's minimum before the loop). -/
def gaHistoryEntryC1 (g : List ℕ) : WithTop ℚ :=
  gaHistoryAppendBest (updateBest ⊤ (minCost gaCostsC1)) (gaGenerationC1 g).2

/-! # Theorems -/

/-! ## Helper lemmas -/

lemma globalUpdateEdge_symm (rho dep : ℚ) (P : ℕ → ℕ → ℚ) (a b : ℕ)
    (hP : MatSymm P) : MatSymm (globalUpdateEdge rho dep P a b) := by
  intro x y
  simp only [globalUpdateEdge, matSet]
  split_ifs <;> first | rfl | exact hP x y | tauto

lemma updateBest_top (c : ℚ) : updateBest ⊤ c = (c : WithTop ℚ) := by
  simp [updateBest, WithTop.coe_lt_top]

lemma updateBest_coe (b c : ℚ) :
    updateBest (b : WithTop ℚ) c = ((if c < b then c else b : ℚ) : WithTop ℚ) := by
  simp only [updateBest, WithTop.coe_lt_coe]
  split_ifs <;> rfl

lemma foldl_globalUpdateEdge_symm (rho dep : ℚ) :
    ∀ (es : List (ℕ × ℕ)) (P : ℕ → ℕ → ℚ), MatSymm P →
      MatSymm (es.foldl (fun Q e => globalUpdateEdge rho dep Q e.1 e.2) P)
  | [], _, hP => hP
  | e :: es, P, hP =>
      foldl_globalUpdateEdge_symm rho dep es _ (globalUpdateEdge_symm rho dep P e.1 e.2 hP)

/-! ## C10: mutation operators at the short-list edge -/

/-- C10: on an individual with fewer than two elements, `SwapMutation.mutate`
    returns it unchanged (the `_MIN_GENES` guard), whereas
    `InsertMutation.mutate` raises an uncaught `ValueError` from
    `random.sample` instead of leaving it unchanged. -/
theorem mutation_short_individual_contract (ind : List ℕ) (d : ℕ × ℕ)
    (h : ind.length < 2) : swapMutate ind d = ind ∧ insertMutate ind d = none := by
  refine ⟨by simp [swapMutate, h], ?_⟩
  simp [insertMutate, pySample2, show ¬ 2 ≤ ind.length by omega]

/-- Witness for C10 at the concrete singleton individual `[7]`. -/
theorem mutation_short_individual_contract_witness :
    ([7] : List ℕ).length < 2 ∧
      (swapMutate [7] (0, 0) = [7] ∧ insertMutate [7] (0, 0) = none) :=
  ⟨by decide, mutation_short_individual_contract [7] (0, 0) (by decide)⟩

/-! ## C8: evaluate before the distance matrix is loaded -/

/-- C8: invoking `TSPProblem.evaluate` while `has_loaded` is false (so
    `get_distance_matrix` yields no matrix) raises the fatal
    `RuntimeError("Distance matrix not loaded.")` instead of returning a
    cost; the error propagates (the embedding returns it, never a value). -/
theorem evaluate_before_load_raises (dm : List (List ℚ)) (t : List ℕ) :
    tspEvaluate (getDistanceMatrix false dm) t =
      .error "Distance matrix not loaded." := rfl

/-! ## C2: pheromone-matrix symmetry under the two update rules -/

/-- C2 counterexample: starting from the all-ones pheromone matrix, after a
    global update on the tour `[0, 1]` (cost 2, rho = 1/2) the matrix is
    symmetric, but the next local update on the traversed edge `(0, 1)`
    (phi = 1/2) writes only that direction, leaving `P[0][1] ≠ P[1][0]` —
    the claim that the matrix is symmetric after every pheromone update is
    false. -/
theorem local_update_breaks_symmetry_counterexample :
    ¬ MatSymm (localUpdate (1/2) (globalUpdate (1/2) 2 initPheromone [0, 1]) 0 1) := by
  intro h
  have h01 := h 0 1
  norm_num [localUpdate, globalUpdate, globalUpdateEdge, matSet, initPheromone] at h01

/-- C2 amended: the global update writes both directions of each edge of
    the iteration-best tour with `(1-rho)·pheromone + rho·(1/cost)` and
    preserves symmetry, while the local update writes only the traversed
    direction `(i, j)` with `(1-phi)·pheromone + phi·1.0` and leaves every
    other entry — including `(j, i)` — unchanged, so symmetry is not
    preserved across local updates. -/
theorem pheromone_update_symmetry_amended :
    (∀ (rho cost : ℚ) (P : ℕ → ℕ → ℚ) (route : List ℕ), MatSymm P →
      MatSymm (globalUpdate rho cost P route)) ∧
    (∀ (phi : ℚ) (P : ℕ → ℕ → ℚ) (i j a b : ℕ), ¬(a = i ∧ b = j) →
      localUpdate phi P i j a b = P a b) ∧
    (∀ (phi : ℚ) (P : ℕ → ℕ → ℚ) (i j : ℕ),
      localUpdate phi P i j i j = (1 - phi) * P i j + phi * 1) := by
  refine ⟨fun rho cost P route hP => ?_, fun phi P i j a b h => ?_, fun phi P i j => ?_⟩
  · exact foldl_globalUpdateEdge_symm rho (1 / cost) _ P hP
  · simp [localUpdate, matSet, h]
  · simp [localUpdate, matSet]

/-- Witness for the amended C2 at concrete inputs. -/
theorem pheromone_update_symmetry_amended_witness :
    MatSymm (globalUpdate (1/2) 2 initPheromone [0, 1]) ∧
      localUpdate (1/2) initPheromone 0 1 1 0 = initPheromone 1 0 :=
  ⟨pheromone_update_symmetry_amended.1 (1/2) 2 initPheromone [0, 1] (fun _ _ => rfl),
   pheromone_update_symmetry_amended.2.1 (1/2) initPheromone 0 1 1 0 (by decide)⟩

/-! ## C1: GA determinism under a fixed seed -/

/-- C1: the GA engine draws its activation coin flips and initial shuffles
    from the seeded `self._rng`, but `TournamentSelection.select`,
    `OrderCrossover.crossover` and `SwapMutation.mutate` draw from the
    module-level `random`.  With identical engine streams (equal seeds,
    identical initial populations and coins) but different module-level
    streams, one generation appends best-cost 17 in one run and 19 in the
    other: the History is not a function of the seed alone. -/
theorem ga_seed_determinism_codebug :
    gaHistoryEntryC1 [0, 1, 0, 1, 0, 1, 0, 1] = (17 : ℚ) ∧
    gaHistoryEntryC1 [0, 1, 0, 1, 1, 1, 1, 1] = (19 : ℚ) ∧
    gaHistoryEntryC1 [0, 1, 0, 1, 0, 1, 0, 1] ≠
      gaHistoryEntryC1 [0, 1, 0, 1, 1, 1, 1, 1] := by
  have h1 : gaHistoryEntryC1 [0, 1, 0, 1, 0, 1, 0, 1] = (17 : ℚ) := by
    norm_num [gaHistoryEntryC1, gaGenerationC1, gaGeneration, gaOffspringLoop,
      tournamentSelG, tournamentSelect, minByCost, swapMutateG, swapMutate,
      pySample2, oxCrossover, elitistReplace, sortByCost, insertByCost,
      gaPopulationC1, gaCostsC1, posWeightedCost, pyInt, minCost, updateBest_top,
      updateBest_coe, gaHistoryAppendBest] <;> decide
  have h2 : gaHistoryEntryC1 [0, 1, 0, 1, 1, 1, 1, 1] = (19 : ℚ) := by
    norm_num [gaHistoryEntryC1, gaGenerationC1, gaGeneration, gaOffspringLoop,
      tournamentSelG, tournamentSelect, minByCost, swapMutateG, swapMutate,
      pySample2, oxCrossover, elitistReplace, sortByCost, insertByCost,
      gaPopulationC1, gaCostsC1, posWeightedCost, pyInt, minCost, updateBest_top,
      updateBest_coe, gaHistoryAppendBest] <;> decide
  refine ⟨h1, h2, ?_⟩
  rw [h1, h2]
  intro h
  exact absurd (WithTop.coe_injective h) (by norm_num)

/-! ## C5: History best-cost monotonicity -/

lemma updateBest_le (b : WithTop ℚ) (c : ℚ) : updateBest b c ≤ b := by
  unfold updateBest
  split_ifs with h
  · exact le_of_lt h
  · exact le_refl b

lemma updateBest_eq_min (b : WithTop ℚ) (c : ℚ) :
    updateBest b c = min b (c : WithTop ℚ) := by
  unfold updateBest
  rcases lt_or_le (c : WithTop ℚ) b with h | h
  · rw [if_pos h, min_eq_right (le_of_lt h)]
  · rw [if_neg (not_lt.mpr h), min_eq_left h]

lemma bestCostTrace_head_le (b : WithTop ℚ) (cs : List ℚ) :
    ∀ x ∈ (bestCostTrace b cs).head?, x ≤ b := by
  cases cs with
  | nil => simp [bestCostTrace]
  | cons c cs => simpa [bestCostTrace] using updateBest_le b c

lemma bestCostTrace_chain : ∀ (cs : List ℚ) (b : WithTop ℚ),
    List.Chain' (fun x y => y ≤ x) (bestCostTrace b cs)
  | [], _ => by simp [bestCostTrace]
  | c :: cs, b => by
      rw [bestCostTrace]
      exact List.chain'_cons'.mpr
        ⟨bestCostTrace_head_le (updateBest b c) cs, bestCostTrace_chain cs (updateBest b c)⟩

lemma bestCostTrace_get : ∀ (cs : List ℚ) (b : WithTop ℚ) (i : ℕ), i < cs.length →
    (bestCostTrace b cs)[i]? =
      some (((cs.take (i + 1)).map ((↑·) : ℚ → WithTop ℚ)).foldl min b)
  | [], _, i, h => by simp at h
  | c :: cs, b, 0, _ => by
      simp [bestCostTrace, updateBest_eq_min]
  | c :: cs, b, i + 1, h => by
      have ih := bestCostTrace_get cs (updateBest b c) i (by simpa using h)
      rw [bestCostTrace, List.getElem?_cons_succ, ih, List.take_succ_cons, List.map_cons,
        List.foldl_cons, ← updateBest_eq_min]

/-- C5: for both engines, the best-cost field of the History returned by
    `run()` is monotonically non-increasing, and every appended sample is
    the minimum cost observed so far (the `_update_best` fold over the
    per-iteration minimum costs, lowered only on strict improvement). -/
theorem history_best_cost_monotone (b : WithTop ℚ) (cs : List ℚ) :
    List.Chain' (fun x y => y ≤ x) (bestCostTrace b cs) ∧
    (∀ i, i < cs.length →
      (bestCostTrace b cs)[i]? =
        some (((cs.take (i + 1)).map ((↑·) : ℚ → WithTop ℚ)).foldl min b)) :=
  ⟨bestCostTrace_chain cs b, fun i h => bestCostTrace_get cs b i h⟩

/-- Witness for C5 at a concrete trace (initial best `inf`, iteration
    minima 3, 5, 2). -/
theorem history_best_cost_monotone_witness :
    List.Chain' (fun x y => y ≤ x) (bestCostTrace ⊤ [3, 5, 2]) ∧
    (bestCostTrace ⊤ [3, 5, 2])[1]? =
      some ((([(3:ℚ), 5, 2].take 2).map ((↑·) : ℚ → WithTop ℚ)).foldl min ⊤) :=
  ⟨(history_best_cost_monotone ⊤ [3, 5, 2]).1,
   (history_best_cost_monotone ⊤ [3, 5, 2]).2 1 (by decide)⟩

/-! ## C6: cyclic tour cost -/

lemma sum_map_range (f : ℕ → ℚ) : ∀ n : ℕ,
    ((List.range n).map f).sum = ∑ k ∈ Finset.range n, f k
  | 0 => by simp
  | n + 1 => by
      rw [List.range_succ, Finset.sum_range_succ, List.map_append, List.sum_append,
        sum_map_range f n]
      simp

lemma onesMatrix4_entry (x y : ℕ) (hx : x < 4) (hy : y < 4) (hxy : x ≠ y) :
    (onesMatrix4[x]?.getD [])[y]?.getD 0 = 1 := by
  interval_cases x <;> interval_cases y <;> simp_all [onesMatrix4]

/-- C6: for a loaded distance matrix, `evaluate(t)` returns the cyclic
    closed-loop cost `sum over k < N of D[t[k]][t[(k+1) mod N]]`; in
    particular, on the 4-city matrix with `D[i][j] = 1` for `i ≠ j` it
    returns 4.0 for every permutation tour. -/
theorem tsp_evaluate_cyclic_cost :
    (∀ (dist : List (List ℚ)) (t : List ℕ), dist ≠ [] →
      tspEvaluate (some dist) t =
        .ok (∑ k ∈ Finset.range t.length,
          (dist.getD (t.getD k 0) []).getD (t.getD ((k + 1) % t.length) 0) 0)) ∧
    (∀ t : List ℕ, t.Perm [0, 1, 2, 3] →
      tspEvaluate (some onesMatrix4) t = .ok 4) := by
  constructor
  · intro dist t hdist
    simp [tspEvaluate, hdist, tourCost, sum_map_range]
  · intro t ht
    have hlen : t.length = 4 := by simpa using ht.length_eq
    have hnd : t.Nodup := ht.nodup_iff.mpr (by decide)
    have hmem : ∀ x ∈ t, x < 4 := by
      intro x hx
      have : x ∈ [0, 1, 2, 3] := ht.mem_iff.mp hx
      simp at this
      omega
    rcases t with _ | ⟨a, _ | ⟨b, _ | ⟨c, _ | ⟨d, _ | ⟨e, t⟩⟩⟩⟩⟩ <;> simp_all
    obtain ⟨⟨hab, hac, had⟩, ⟨hbc, hbd⟩, hcd⟩ := hnd
    have ha := hmem.1
    have hb := hmem.2.1
    have hc := hmem.2.2.1
    have hd := hmem.2.2.2
    rw [tspEvaluate]
    simp only [show (onesMatrix4 = []) = False by simp [onesMatrix4], if_false]
    rw [tourCost]
    norm_num [List.range_succ]
    rw [onesMatrix4_entry a b ha hb hab, onesMatrix4_entry b c hb hc hbc,
      onesMatrix4_entry c d hc hd hcd, onesMatrix4_entry d a hd ha (Ne.symm had)]
    norm_num

/-- Witness for C6: the general formula at a 1-city instance and the
    uniform-cost scenario at the concrete tour `[2, 0, 3, 1]`. -/
theorem tsp_evaluate_cyclic_cost_witness :
    ([2, 0, 3, 1] : List ℕ).Perm [0, 1, 2, 3] ∧
    tspEvaluate (some onesMatrix4) [2, 0, 3, 1] = .ok 4 :=
  ⟨by decide, tsp_evaluate_cyclic_cost.2 [2, 0, 3, 1] (by decide)⟩

/-! ## C4: elitist succession -/

lemma map_snd_insertByCost {α : Type} (x : α × ℚ) :
    ∀ l : List (α × ℚ), (insertByCost x l).map (·.2) = insertCostQ x.2 (l.map (·.2))
  | [] => rfl
  | y :: ys => by
      simp only [insertByCost, insertCostQ, List.map_cons]
      split_ifs <;> simp [map_snd_insertByCost x ys]

lemma map_snd_sortByCost {α : Type} :
    ∀ l : List (α × ℚ), (sortByCost l).map (·.2) = sortCosts (l.map (·.2))
  | [] => rfl
  | x :: xs => by
      simp only [sortByCost, sortCosts, List.map_cons]
      rw [map_snd_insertByCost, map_snd_sortByCost xs]

lemma map_snd_zip_eq {α β : Type} : ∀ (l₁ : List α) (l₂ : List β),
    l₁.length = l₂.length → (l₁.zip l₂).map (·.2) = l₂
  | [], [], _ => rfl
  | _ :: l₁, _ :: l₂, h => by simp [map_snd_zip_eq l₁ l₂ (by simpa using h)]
  | [], _ :: _, h => by simp at h
  | _ :: _, [], h => by simp at h

/-- C4 counterexample: for 3 parents with `elite_rate = 0.5`, the claim's
    formula `elite_count = max(1, round(0.5 * 3)) = 2` would keep the two
    lowest-cost parents (costs 10 and 20), but the code truncates with
    `int()` and keeps only one: cost 20 is not in the resulting population
    costs `[10, 1, 2]`. -/
theorem elitist_round_counterexample :
    pyRound ((1/2 : ℚ) * 3) = 2 ∧
    (elitistReplace (1/2) [[0], [1], [2]] [[3], [4], [5]] [10, 20, 30] [1, 2, 3]).2 =
      [10, 1, 2] ∧
    (20 : ℚ) ∉ (elitistReplace (1/2) [[0], [1], [2]] [[3], [4], [5]]
      [10, 20, 30] [1, 2, 3]).2 := by
  have h2 : (elitistReplace (1/2) [[0], [1], [2]] [[3], [4], [5]]
      [10, 20, 30] [1, 2, 3]).2 = [10, 1, 2] := by
    norm_num [elitistReplace, sortByCost, insertByCost, pyInt]
  refine ⟨by norm_num [pyRound], h2, ?_⟩
  rw [h2]
  norm_num

/-- C4 amended: `ElitistSuccession.replace` keeps exactly
    `elite_count = max(1, int(elite_rate * N))` lowest-cost parents
    (truncation, not rounding) and fills the remaining slots with the
    lowest-cost offspring; the concrete scenario (parents `[50,40,30,20,10]`,
    offspring `[45,35,25,15,5]`, `elite_rate = 0.2`, `elite_count = 1`)
    yields exactly the costs `{10, 5, 15, 25, 35}`. -/
theorem elitist_replace_floor_semantics :
    (∀ (rate : ℚ) (parents offspring : List (List ℕ)) (pc oc : List ℚ),
      parents.length = pc.length → offspring.length = oc.length →
      (elitistReplace rate parents offspring pc oc).2 =
        (sortCosts pc).take ((max 1 (pyInt (rate * parents.length))).toNat) ++
        (sortCosts oc).take
          (parents.length - (max 1 (pyInt (rate * parents.length))).toNat)) ∧
    (elitistReplace (1/5) [[0], [1], [2], [3], [4]] [[5], [6], [7], [8], [9]]
      [50, 40, 30, 20, 10] [45, 35, 25, 15, 5]).2 = [10, 5, 15, 25, 35] := by
  constructor
  · intro rate parents offspring pc oc hp ho
    unfold elitistReplace
    simp only [List.map_append, List.map_take]
    rw [map_snd_sortByCost, map_snd_sortByCost, map_snd_zip_eq parents pc hp,
      map_snd_zip_eq offspring oc ho]
  · norm_num [elitistReplace, sortByCost, insertByCost, pyInt]

/-- Witness for the amended C4 at concrete inputs. -/
theorem elitist_replace_floor_semantics_witness :
    (elitistReplace (1/2) [[0], [1]] [[2], [3]] [4, 3] [2, 1]).2 =
      (sortCosts [4, 3]).take
        ((max 1 (pyInt ((1/2) * ([[0], [1]] : List (List ℕ)).length))).toNat) ++
      (sortCosts [2, 1]).take
        (([[0], [1]] : List (List ℕ)).length -
          (max 1 (pyInt ((1/2) * ([[0], [1]] : List (List ℕ)).length))).toNat) :=
  elitist_replace_floor_semantics.1 (1/2) [[0], [1]] [[2], [3]] [4, 3] [2, 1]
    (by decide) (by decide)

/-! ## C7: population size invariance across generations -/

lemma insertByCost_length {α : Type} (x : α × ℚ) :
    ∀ l : List (α × ℚ), (insertByCost x l).length = l.length + 1
  | [] => rfl
  | y :: ys => by
      simp only [insertByCost]
      split_ifs <;> simp [insertByCost_length x ys]

lemma sortByCost_length {α : Type} :
    ∀ l : List (α × ℚ), (sortByCost l).length = l.length
  | [] => rfl
  | x :: xs => by simp [sortByCost, insertByCost_length, sortByCost_length xs]

lemma insertByCost_perm {α : Type} (x : α × ℚ) :
    ∀ l : List (α × ℚ), (insertByCost x l).Perm (x :: l)
  | [] => List.Perm.refl _
  | y :: ys => by
      simp only [insertByCost]
      split_ifs
      · exact List.Perm.refl _
      · exact ((insertByCost_perm x ys).cons y).trans (List.Perm.swap x y ys)

lemma sortByCost_perm {α : Type} :
    ∀ l : List (α × ℚ), (sortByCost l).Perm l
  | [] => List.Perm.refl _
  | x :: xs => (insertByCost_perm x (sortByCost xs)).trans ((sortByCost_perm xs).cons x)

lemma gaOffspringLoop_length (N : ℕ) (cr mr : ℚ) (sel : SelectFn) (cx : CrossFn)
    (mu : MutFn) (pop : List (List ℕ)) (costs : List ℚ) (fuel : ℕ) :
    ∀ (ec : List ℚ) (g : List ℕ) (acc : List (List ℕ)),
      N ≤ acc.length + 2 * fuel →
      ((gaOffspringLoop N cr mr sel cx mu pop costs fuel ec g acc).1).length =
        if N ≤ acc.length then acc.length else N + (N - acc.length) % 2 := by
  induction fuel with
  | zero =>
      intro ec g acc h
      rw [gaOffspringLoop, if_pos (by omega)]
  | succ fuel ih =>
      intro ec g acc h
      rw [gaOffspringLoop]
      by_cases hlt : acc.length < N
      · rw [if_pos hlt, ih]
        · simp only [List.length_append, List.length_cons, List.length_nil]
          split_ifs <;> omega
        · simp only [List.length_append, List.length_cons, List.length_nil]
          omega
      · rw [if_neg hlt, if_pos (by omega)]

lemma toNat_max_one_le {q : ℚ} {N : ℕ} (hq : q ≤ N) (hN : 1 ≤ N) :
    (max 1 (pyInt q)).toNat ≤ N := by
  have h1 : pyInt q ≤ (N : ℤ) := by
    unfold pyInt
    split_ifs with h
    · calc ⌊q⌋ ≤ ⌊(N : ℚ)⌋ := Int.floor_mono hq
        _ = N := by simp
    · calc ⌈q⌉ ≤ ⌈(N : ℚ)⌉ := Int.ceil_mono hq
        _ = N := by simp
  have h2 : max 1 (pyInt q) ≤ (N : ℤ) := max_le (by exact_mod_cast hN) h1
  exact Int.toNat_le.mpr h2

lemma elitistReplace_length (rate : ℚ) (parents offspring : List (List ℕ))
    (pc oc : List ℚ) (hp : pc.length = parents.length)
    (hoc : oc.length = offspring.length)
    (hk : (max 1 (pyInt (rate * parents.length))).toNat ≤ parents.length)
    (hoff : parents.length - (max 1 (pyInt (rate * parents.length))).toNat ≤
      offspring.length) :
    (elitistReplace rate parents offspring pc oc).1.length = parents.length ∧
    (elitistReplace rate parents offspring pc oc).2.length = parents.length := by
  unfold elitistReplace
  constructor <;>
  · simp only [List.length_map, List.length_append, List.length_take,
      sortByCost_length, List.length_zip]
    omega

lemma steadyStateReplace_length (rate : ℚ) (parents offspring : List (List ℕ))
    (pc oc : List ℚ) (hp : pc.length = parents.length)
    (hoc : oc.length = offspring.length)
    (hk : (max 1 (pyInt (rate * parents.length))).toNat ≤ parents.length)
    (hoff : (max 1 (pyInt (rate * parents.length))).toNat ≤ offspring.length) :
    (steadyStateReplace rate parents offspring pc oc).1.length = parents.length ∧
    (steadyStateReplace rate parents offspring pc oc).2.length = parents.length := by
  unfold steadyStateReplace
  constructor <;>
  · simp only [List.length_map, List.length_append, List.length_take,
      sortByCost_length, List.length_zip]
    omega

lemma elitistReplace_zip_subset (rate : ℚ) (parents offspring : List (List ℕ))
    (pc oc : List ℚ) :
    ∀ pr ∈ ((elitistReplace rate parents offspring pc oc).1).zip
      ((elitistReplace rate parents offspring pc oc).2),
      pr ∈ parents.zip pc ++ offspring.zip oc := by
  unfold elitistReplace
  intro pr hpr
  rw [List.zip_map'] at hpr
  simp only [Prod.mk.eta, List.map_id, List.map_id'] at hpr
  rcases List.mem_append.mp hpr with h | h
  · exact List.mem_append_left _
      ((sortByCost_perm (parents.zip pc)).mem_iff.mp (List.take_subset _ _ h))
  · exact List.mem_append_right _
      ((sortByCost_perm (offspring.zip oc)).mem_iff.mp (List.take_subset _ _ h))

lemma steadyStateReplace_zip_subset (rate : ℚ) (parents offspring : List (List ℕ))
    (pc oc : List ℚ) :
    ∀ pr ∈ ((steadyStateReplace rate parents offspring pc oc).1).zip
      ((steadyStateReplace rate parents offspring pc oc).2),
      pr ∈ parents.zip pc ++ offspring.zip oc := by
  unfold steadyStateReplace
  intro pr hpr
  rw [List.zip_map'] at hpr
  simp only [Prod.mk.eta, List.map_id, List.map_id'] at hpr
  rcases List.mem_append.mp hpr with h | h
  · exact List.mem_append_left _
      ((sortByCost_perm (parents.zip pc)).mem_iff.mp (List.take_subset _ _ h))
  · exact List.mem_append_right _
      ((sortByCost_perm (offspring.zip oc)).mem_iff.mp (List.take_subset _ _ h))

lemma rate_mul_le {rate : ℚ} (N : ℕ) (hr1 : rate ≤ 1) (hr0 : 0 < rate) :
    rate * N ≤ (N : ℚ) := by
  calc rate * N ≤ 1 * N := by
        apply mul_le_mul_of_nonneg_right hr1 (by positivity)
    _ = N := one_mul _

/-- C7: the GA population size is invariant: the offspring loop produces
    `population_size + population_size % 2` children (one extra when odd),
    and one full generation through either `ElitistSuccession.replace` or
    `SteadyStateSuccession.replace` returns exactly `population_size`
    individuals with a cost list of the same length, every member paired
    with its cost from the parent population or from the evaluated
    offspring. -/
theorem ga_population_size_invariant
    (sel : SelectFn) (cx : CrossFn) (mu : MutFn) (evalTour : List ℕ → ℚ)
    (cr mr rate : ℚ) (population : List (List ℕ)) (costs : List ℚ)
    (ec : List ℚ) (g : List ℕ)
    (hN : 1 ≤ population.length) (hc : costs.length = population.length)
    (hr0 : 0 < rate) (hr1 : rate ≤ 1) :
    ((gaOffspringLoop population.length cr mr sel cx mu population costs
        population.length ec g []).1).length =
      population.length + population.length % 2 ∧
    ((gaGeneration population.length cr mr sel cx mu evalTour
        (elitistReplace rate) population costs ec g).1.length = population.length ∧
      (gaGeneration population.length cr mr sel cx mu evalTour
        (elitistReplace rate) population costs ec g).2.length = population.length ∧
      ∀ pr ∈ ((gaGeneration population.length cr mr sel cx mu evalTour
          (elitistReplace rate) population costs ec g).1).zip
        ((gaGeneration population.length cr mr sel cx mu evalTour
          (elitistReplace rate) population costs ec g).2),
        pr ∈ population.zip costs ++
          (gaOffspringLoop population.length cr mr sel cx mu population costs
            population.length ec g []).1.zip
          ((gaOffspringLoop population.length cr mr sel cx mu population costs
            population.length ec g []).1.map evalTour)) ∧
    ((gaGeneration population.length cr mr sel cx mu evalTour
        (steadyStateReplace rate) population costs ec g).1.length =
      population.length ∧
      (gaGeneration population.length cr mr sel cx mu evalTour
        (steadyStateReplace rate) population costs ec g).2.length =
      population.length ∧
      ∀ pr ∈ ((gaGeneration population.length cr mr sel cx mu evalTour
          (steadyStateReplace rate) population costs ec g).1).zip
        ((gaGeneration population.length cr mr sel cx mu evalTour
          (steadyStateReplace rate) population costs ec g).2),
        pr ∈ population.zip costs ++
          (gaOffspringLoop population.length cr mr sel cx mu population costs
            population.length ec g []).1.zip
          ((gaOffspringLoop population.length cr mr sel cx mu population costs
            population.length ec g []).1.map evalTour)) := by
  have hofflen : ((gaOffspringLoop population.length cr mr sel cx mu population
      costs population.length ec g []).1).length =
      population.length + population.length % 2 := by
    rw [gaOffspringLoop_length population.length cr mr sel cx mu population costs
      population.length ec g [] (by simp; omega)]
    simp only [List.length_nil]
    rw [if_neg (by omega)]
    omega
  have hk : (max 1 (pyInt (rate * population.length))).toNat ≤ population.length :=
    toNat_max_one_le (rate_mul_le population.length hr1 hr0) hN
  refine ⟨hofflen, ⟨?_, ?_, ?_⟩, ?_, ?_, ?_⟩
  · exact (elitistReplace_length rate population _ costs _ hc
      (by simp) hk (by rw [hofflen]; omega)).1
  · exact (elitistReplace_length rate population _ costs _ hc
      (by simp) hk (by rw [hofflen]; omega)).2
  · exact fun pr hpr => elitistReplace_zip_subset rate population _ costs _ pr hpr
  · exact (steadyStateReplace_length rate population _ costs _ hc
      (by simp) hk (by rw [hofflen]; omega)).1
  · exact (steadyStateReplace_length rate population _ costs _ hc
      (by simp) hk (by rw [hofflen]; omega)).2
  · exact fun pr hpr => steadyStateReplace_zip_subset rate population _ costs _ pr hpr

/-- Witness for C7 at the concrete GA configuration. -/
theorem ga_population_size_invariant_witness :
    (gaGeneration 2 0 1 tournamentSelG oxCrossover swapMutateG posWeightedCost
      (elitistReplace (1/2)) gaPopulationC1 gaCostsC1 [] []).1.length = 2 :=
  (ga_population_size_invariant tournamentSelG oxCrossover swapMutateG
    posWeightedCost 0 1 (1/2) gaPopulationC1 gaCostsC1 [] []
    (by decide) (by decide) one_half_pos one_half_lt_one.le).2.1.1

/-! ## C9 groundwork: ACS route construction yields permutations -/

lemma foldl_maxByWeight_mem (w : ℕ → ℚ) :
    ∀ (xs : List ℕ) (x : ℕ),
      xs.foldl (fun a y => if w a < w y then y else a) x ∈ x :: xs
  | [], x => by simp
  | y :: ys, x => by
      simp only [List.foldl_cons]
      by_cases hxy : w x < w y
      · rw [if_pos hxy]
        have h := foldl_maxByWeight_mem w ys y
        rcases List.mem_cons.mp h with h | h <;> simp [h]
      · rw [if_neg hxy]
        have h := foldl_maxByWeight_mem w ys x
        rcases List.mem_cons.mp h with h | h <;> simp [h]

lemma maxByWeight_mem (w : ℕ → ℚ) (l : List ℕ) (hl : l ≠ []) : maxByWeight w l ∈ l := by
  cases l with
  | nil => exact absurd rfl hl
  | cons x xs => exact foldl_maxByWeight_mem w xs x

lemma rouletteLoop_mem (w : ℕ → ℚ) (total r : ℚ) :
    ∀ (l : List ℕ) (cum : ℚ) (j : ℕ), rouletteLoop w total r l cum = some j → j ∈ l
  | [], _, _, h => by simp [rouletteLoop] at h
  | x :: xs, cum, j, h => by
      rw [rouletteLoop] at h
      split_ifs at h with hc
      · simp at h
        simp [h]
      · exact List.mem_cons_of_mem x (rouletteLoop_mem w total r xs _ j h)

lemma chooseNextCity_mem (q q0 : ℚ) (w : ℕ → ℚ) (r : ℚ) (c : ℕ)
    (l : List ℕ) (hl : l ≠ []) : chooseNextCity q q0 w r c l ∈ l := by
  unfold chooseNextCity
  by_cases h1 : q ≤ q0
  · rw [if_pos h1]
    exact maxByWeight_mem w l hl
  · rw [if_neg h1]
    dsimp only
    by_cases h2 : (l.map w).sum = 0
    · rw [if_pos h2]
      have hlen : 0 < l.length := List.length_pos.mpr hl
      have hlt : c % max l.length 1 < l.length := by
        have : c % max l.length 1 < max l.length 1 := Nat.mod_lt c (by omega)
        omega
      rw [List.getD_eq_getElem l 0 hlt]
      exact List.getElem_mem hlt
    · rw [if_neg h2]
      rcases hrl : rouletteLoop w ((l.map w).sum) r l 0 with _ | j
      · show l.getLast?.getD 0 ∈ l
        rcases hlast : l.getLast? with _ | j
        · exact absurd (List.getLast?_isSome.mpr hl) (by rw [hlast]; simp)
        · rcases List.mem_getLast?_eq_getLast (show j ∈ l.getLast? from hlast) with ⟨h3, hj⟩
          simpa [hj] using List.getLast_mem h3
      · exact rouletteLoop_mem w _ r l 0 j hrl

lemma buildRouteAux_perm (choose : ChooseFn)
    (hchoose : ∀ s cur l, l ≠ [] → choose s cur l ∈ l) :
    ∀ (fuel cur : ℕ) (unvisited : List ℕ), unvisited.length = fuel →
      (buildRouteAux choose fuel cur unvisited).Perm unvisited := by
  intro fuel
  induction fuel with
  | zero =>
      intro cur unvisited h
      rw [List.length_eq_zero] at h
      subst h
      rw [buildRouteAux]
  | succ fuel ih =>
      intro cur unvisited h
      have hne : unvisited ≠ [] := by
        intro hnil; subst hnil; simp at h
      rw [buildRouteAux]
      rw [if_neg (by simpa [List.isEmpty_iff] using hne)]
      have hmem := hchoose fuel cur unvisited hne
      have herase : (unvisited.erase (choose fuel cur unvisited)).length = fuel := by
        rw [List.length_erase_of_mem hmem]
        omega
      exact ((ih _ _ herase).cons _).trans (List.perm_cons_erase hmem).symm

/-- Every route built by `_build_route` with a chooser that picks a member
    of the unvisited pool is a permutation of `range n`. -/
lemma buildRoute_perm (n start : ℕ) (choose : ChooseFn) (hstart : start < n)
    (hchoose : ∀ s cur l, l ≠ [] → choose s cur l ∈ l) :
    (buildRoute n start choose).Perm (List.range n) := by
  unfold buildRoute
  have hmem : start ∈ List.range n := by simp [hstart]
  exact ((buildRouteAux_perm choose hchoose _ start _ rfl).cons start).trans
    (List.perm_cons_erase hmem).symm

/-! ## C9 groundwork: OX children are permutations -/

lemma fillNones_filterMap_perm :
    ∀ (l : List (Option ℕ)) (fs : List ℕ),
      l.countP (fun o => o.isNone) = fs.length →
      ((fillNones l fs).filterMap id).Perm (l.filterMap id ++ fs)
  | [], fs, h => by
      simp only [List.countP_nil] at h
      have hfs : fs = [] := List.length_eq_zero.mp h.symm
      subst hfs
      simp [fillNones]
  | some x :: rest, fs, h => by
      have hc : rest.countP (fun o => o.isNone) = fs.length := by
        simpa [List.countP_cons] using h
      have := fillNones_filterMap_perm rest fs hc
      simpa [fillNones] using this.cons x
  | none :: rest, [], h => by
      simp [List.countP_cons] at h
  | none :: rest, f :: fs, h => by
      have hc : rest.countP (fun o => o.isNone) = fs.length := by
        simpa [List.countP_cons] using h
      have ih := fillNones_filterMap_perm rest fs hc
      simp only [fillNones, List.filterMap_cons]
      simp only [id, Option.isNone]
      exact (ih.cons f).trans List.perm_middle.symm

lemma filterMap_id_replicate_none (n : ℕ) :
    (List.replicate n (none : Option ℕ)).filterMap id = [] := by
  induction n with
  | zero => rfl
  | succ n ih => simpa [List.replicate_succ, List.filterMap_cons] using ih

lemma countP_isNone_replicate (n : ℕ) :
    (List.replicate n (none : Option ℕ)).countP (fun o => o.isNone) = n := by
  induction n with
  | zero => rfl
  | succ n ih => simp [List.replicate_succ, List.countP_cons, ih]

lemma oxWindowList_filterMap (a b : ℕ) (p1 : List ℕ) :
    (oxWindowList a b p1).filterMap id = (p1.take b).drop a := by
  unfold oxWindowList
  rw [List.filterMap_append, List.filterMap_append, filterMap_id_replicate_none,
    filterMap_id_replicate_none, List.filterMap_map]
  simpa using List.filterMap_some ((p1.take b).drop a)

lemma oxWindowList_countP (a b : ℕ) (p1 : List ℕ) :
    (oxWindowList a b p1).countP (fun o => o.isNone) = a + (p1.length - b) := by
  unfold oxWindowList
  rw [List.countP_append, List.countP_append, countP_isNone_replicate,
    countP_isNone_replicate]
  have : ((((p1.take b).drop a).map some).countP fun o => o.isNone) = 0 := by
    rw [List.countP_eq_zero]
    intro o ho
    rcases List.mem_map.mp ho with ⟨x, _, rfl⟩
    simp
  omega

lemma ox_decomp (a b : ℕ) (p1 : List ℕ) (hab : a ≤ b) :
    p1.Perm (((p1.take b).drop a) ++ (p1.take a ++ p1.drop b)) := by
  have h1 : p1 = p1.take a ++ ((p1.take b).drop a ++ p1.drop b) := by
    conv_lhs => rw [← List.take_append_drop b p1, ← List.take_append_drop a (p1.take b)]
    rw [List.take_take, min_eq_left hab, List.append_assoc]
  have h2 : (p1.take a ++ ((p1.take b).drop a ++ p1.drop b)).Perm
      ((p1.take b).drop a ++ (p1.take a ++ p1.drop b)) := by
    have h3 := (@List.perm_append_comm _ (p1.take a)
      ((p1.take b).drop a)).append_right (p1.drop b)
    simpa [List.append_assoc] using h3
  conv_lhs => rw [h1]
  exact h2

lemma ox_fill_perm (a b : ℕ) (p1 p2 : List ℕ) (hnd : p1.Nodup) (hperm : p2.Perm p1)
    (hab : a ≤ b) :
    (p2.filter (fun x => !(((p1.take b).drop a).contains x))).Perm
      (p1.take a ++ p1.drop b) := by
  have hdecomp := ox_decomp a b p1 hab
  have hp2 : p2.Perm ((p1.take b).drop a ++ (p1.take a ++ p1.drop b)) :=
    hperm.trans hdecomp
  have hnodupWR : ((p1.take b).drop a ++ (p1.take a ++ p1.drop b)).Nodup :=
    hdecomp.nodup_iff.mp hnd
  have hdisj := List.disjoint_of_nodup_append hnodupWR
  have hfilter := hp2.filter (fun x => !(((p1.take b).drop a).contains x))
  rw [List.filter_append] at hfilter
  have hWnil : ((p1.take b).drop a).filter
      (fun x => !(((p1.take b).drop a).contains x)) = [] := by
    rw [List.filter_eq_nil_iff]
    intro x hx
    simp [hx]
  have hrest : (p1.take a ++ p1.drop b).filter
      (fun x => !(((p1.take b).drop a).contains x)) = p1.take a ++ p1.drop b := by
    rw [List.filter_eq_self]
    intro x hx
    simpa using fun hxW => hdisj hxW hx
  rw [hWnil, hrest] at hfilter
  simpa using hfilter

lemma oxChild_perm (a b : ℕ) (p1 p2 : List ℕ) (hnd : p1.Nodup) (hperm : p2.Perm p1)
    (hab : a ≤ b) (hb : b ≤ p1.length) : (oxChild a b p1 p2).Perm p1 := by
  unfold oxChild
  dsimp only
  have hfill := ox_fill_perm a b p1 p2 hnd hperm hab
  have hcount : (oxWindowList a b p1).countP (fun o => o.isNone) =
      (p2.filter (fun x => !(((p1.take b).drop a).contains x))).length := by
    rw [oxWindowList_countP, hfill.length_eq]
    simp only [List.length_append, List.length_take, List.length_drop]
    omega
  have h1 := fillNones_filterMap_perm (oxWindowList a b p1) _ hcount
  rw [oxWindowList_filterMap] at h1
  refine h1.trans ?_
  exact (hfill.append_left ((p1.take b).drop a)).trans (ox_decomp a b p1 hab).symm

/-! ## C3/C9 groundwork: the CX loops and their termination

The CX inner loop iterates the index map `idx ↦ p1.index(p2[idx])`.  For
permutation parents this map is a bijection on `{0, …, n-1}`, so the orbit
of any start index returns to it within `n` steps — this is what makes the
`while idx != start` loop terminate. -/

lemma iterate_lt (f : ℕ → ℕ) (n : ℕ) (hf : ∀ i, i < n → f i < n) :
    ∀ (k x : ℕ), x < n → f^[k] x < n
  | 0, x, hx => hx
  | k + 1, x, hx => by
      rw [Function.iterate_succ_apply]
      exact iterate_lt f n hf k (f x) (hf x hx)

lemma iterate_inj_cancel (f : ℕ → ℕ) (n : ℕ) (hf : ∀ i, i < n → f i < n)
    (hinj : ∀ i j, i < n → j < n → f i = f j → i = j) :
    ∀ (k x y : ℕ), x < n → y < n → f^[k] x = f^[k] y → x = y
  | 0, x, y, _, _, h => h
  | k + 1, x, y, hx, hy, h => by
      rw [Function.iterate_succ_apply, Function.iterate_succ_apply] at h
      exact hinj x y hx hy
        (iterate_inj_cancel f n hf hinj k (f x) (f y) (hf x hx) (hf y hy) h)

lemma orbit_returns (f : ℕ → ℕ) (n : ℕ) (hf : ∀ i, i < n → f i < n)
    (hinj : ∀ i j, i < n → j < n → f i = f j → i = j) (x : ℕ) (hx : x < n) :
    ∃ k, 0 < k ∧ k ≤ n ∧ f^[k] x = x := by
  have hmap : ∀ i : Fin (n + 1), f^[i.1] x < n := fun i => iterate_lt f n hf i.1 x hx
  have hcard : Fintype.card (Fin n) < Fintype.card (Fin (n + 1)) := by simp
  obtain ⟨i, j, hne, heq⟩ := Fintype.exists_ne_map_eq_of_card_lt
    (fun i : Fin (n + 1) => (⟨f^[i.1] x, hmap i⟩ : Fin n)) hcard
  have heq' : f^[i.1] x = f^[j.1] x := congrArg Fin.val heq
  have key : ∀ (s t : ℕ), s < t → t ≤ n → f^[s] x = f^[t] x →
      ∃ k, 0 < k ∧ k ≤ n ∧ f^[k] x = x := by
    intro s t hst htn hiter
    have hsplit : f^[s] (f^[t - s] x) = f^[t] x := by
      rw [← Function.iterate_add_apply]
      congr 1
      omega
    have hbound : f^[t - s] x < n := iterate_lt f n hf (t - s) x hx
    have hcancel := iterate_inj_cancel f n hf hinj s (f^[t - s] x) x hbound hx
      (by rw [hsplit, ← hiter])
    exact ⟨t - s, by omega, by omega, hcancel⟩
  rcases Nat.lt_or_ge i.1 j.1 with hij | hij
  · exact key i.1 j.1 hij (by omega) heq'
  · have hne' : j.1 < i.1 := by
      rcases Nat.lt_or_ge j.1 i.1 with h | h
      · exact h
      · exact absurd (Fin.ext (by omega)) hne
    exact key j.1 i.1 hne' (by omega) heq'.symm

lemma cxStep_lt (p1 p2 : List ℕ) (hperm : p2.Perm p1) (idx : ℕ)
    (hidx : idx < p1.length) : cxStep p1 p2 idx < p1.length := by
  unfold cxStep
  have hidx2 : idx < p2.length := by rw [hperm.length_eq]; exact hidx
  have hmem : p2.getD idx 0 ∈ p2 := by
    rw [List.getD_eq_getElem _ _ hidx2]
    exact List.getElem_mem hidx2
  exact List.indexOf_lt_length.mpr (hperm.mem_iff.mp hmem)

lemma cxStep_inj (p1 p2 : List ℕ) (hnd2 : p2.Nodup) (hperm : p2.Perm p1)
    (i j : ℕ) (hi : i < p1.length) (hj : j < p1.length)
    (h : cxStep p1 p2 i = cxStep p1 p2 j) : i = j := by
  unfold cxStep at h
  have hi2 : i < p2.length := by rw [hperm.length_eq]; exact hi
  have hj2 : j < p2.length := by rw [hperm.length_eq]; exact hj
  have hvi : p2.getD i 0 ∈ p1 := by
    rw [List.getD_eq_getElem _ _ hi2]
    exact hperm.mem_iff.mp (List.getElem_mem hi2)
  have hvj : p2.getD j 0 ∈ p1 := by
    rw [List.getD_eq_getElem _ _ hj2]
    exact hperm.mem_iff.mp (List.getElem_mem hj2)
  have hval : p2.getD i 0 = p2.getD j 0 := by
    have h1 : p2.getD i 0 = p1.getD (p1.indexOf (p2.getD i 0)) 0 := by
      rw [List.getD_eq_getElem _ _ (List.indexOf_lt_length.mpr hvi),
        List.getElem_indexOf]
    have h2 : p2.getD j 0 = p1.getD (p1.indexOf (p2.getD j 0)) 0 := by
      rw [List.getD_eq_getElem _ _ (List.indexOf_lt_length.mpr hvj),
        List.getElem_indexOf]
    rw [h1, h2, h]
  rw [List.getD_eq_getElem _ _ hi2, List.getD_eq_getElem _ _ hj2] at hval
  exact (hnd2.getElem_inj_iff).mp hval

lemma cxCycleAux_terminates (p1 p2 : List ℕ) (start : ℕ) :
    ∀ (fuel idx : ℕ), (∃ t, t < fuel ∧ (cxStep p1 p2)^[t] idx = start) →
      ∃ L, cxCycleAux p1 p2 start fuel idx = some L ∧
        ∀ x ∈ L, ∃ s, x = (cxStep p1 p2)^[s] idx := by
  intro fuel
  induction fuel with
  | zero =>
      rintro idx ⟨t, ht, _⟩
      omega
  | succ fuel ih =>
      rintro idx ⟨t, ht, hret⟩
      rw [cxCycleAux]
      by_cases hidx : idx = start
      · rw [if_pos hidx]
        exact ⟨[], rfl, by simp⟩
      · rw [if_neg hidx]
        have ht0 : t ≠ 0 := by
          rintro rfl
          exact hidx (by simpa using hret)
        obtain ⟨t', rfl⟩ : ∃ t', t = t' + 1 := ⟨t - 1, by omega⟩
        have hret' : (cxStep p1 p2)^[t'] (cxStep p1 p2 idx) = start := by
          rw [← Function.iterate_succ_apply]
          exact hret
        obtain ⟨L, hL, hLmem⟩ := ih (cxStep p1 p2 idx) ⟨t', by omega, hret'⟩
        rw [hL]
        refine ⟨idx :: L, rfl, ?_⟩
        intro x hx
        rcases List.mem_cons.mp hx with rfl | hx
        · exact ⟨0, rfl⟩
        · obtain ⟨s, rfl⟩ := hLmem x hx
          exact ⟨s + 1, (Function.iterate_succ_apply _ _ _).symm⟩

lemma cxCycle_some (p1 p2 : List ℕ) (hnd2 : p2.Nodup) (hperm : p2.Perm p1)
    (start : ℕ) (hstart : start < p1.length) :
    ∃ cyc, cxCycle p1 p2 start (p1.length + 1) = some cyc ∧ start ∈ cyc ∧
      ∀ x ∈ cyc, x < p1.length := by
  have hclosure : ∀ i, i < p1.length → cxStep p1 p2 i < p1.length :=
    fun i hi => cxStep_lt p1 p2 hperm i hi
  have hinj : ∀ i j, i < p1.length → j < p1.length →
      cxStep p1 p2 i = cxStep p1 p2 j → i = j :=
    fun i j hi hj h => cxStep_inj p1 p2 hnd2 hperm i j hi hj h
  obtain ⟨k, hk0, hkn, hret⟩ :=
    orbit_returns (cxStep p1 p2) p1.length hclosure hinj start hstart
  have hstep : (cxStep p1 p2)^[k - 1] (cxStep p1 p2 start) = start := by
    have h2 : (cxStep p1 p2)^[k - 1 + 1] start = start := by
      have hk : k - 1 + 1 = k := by omega
      rw [hk]
      exact hret
    rw [Function.iterate_succ_apply] at h2
    exact h2
  obtain ⟨L, hL, hmem⟩ := cxCycleAux_terminates p1 p2 start (p1.length + 1)
    (cxStep p1 p2 start) ⟨k - 1, by omega, hstep⟩
  refine ⟨start :: L, ?_, List.mem_cons_self _ _, ?_⟩
  · rw [cxCycle, hL]
    rfl
  · intro x hx
    rcases List.mem_cons.mp hx with rfl | hx
    · exact hstart
    · obtain ⟨s, rfl⟩ := hmem x hx
      rw [← Function.iterate_succ_apply]
      exact iterate_lt (cxStep p1 p2) p1.length hclosure (s + 1) start hstart

lemma foldl_set_length (p1 : List ℕ) :
    ∀ (cyc : List ℕ) (ch : List (Option ℕ)),
      (cyc.foldl (fun c j => c.set j (some (p1.getD j 0))) ch).length = ch.length
  | [], ch => rfl
  | x :: cyc, ch => by
      rw [List.foldl_cons, foldl_set_length p1 cyc (ch.set x (some (p1.getD x 0)))]
      exact List.length_set ch x _

lemma foldl_set_getD (p1 : List ℕ) :
    ∀ (cyc : List ℕ) (ch : List (Option ℕ)) (i : ℕ), i < ch.length →
      (cyc.foldl (fun c j => c.set j (some (p1.getD j 0))) ch).getD i none =
        if i ∈ cyc then some (p1.getD i 0) else ch.getD i none
  | [], ch, i, _ => by simp
  | x :: cyc, ch, i, hi => by
      rw [List.foldl_cons,
        foldl_set_getD p1 cyc (ch.set x (some (p1.getD x 0))) i
          (by rw [List.length_set]; exact hi)]
      by_cases hic : i ∈ cyc
      · rw [if_pos hic, if_pos (List.mem_cons_of_mem x hic)]
      · rw [if_neg hic]
        by_cases hix : i = x
        · subst hix
          rw [if_pos (List.mem_cons_self i cyc), List.getD_eq_getElem?_getD,
            List.getElem?_set_self hi]
          rfl
        · have hnotin : i ∉ x :: cyc := by
            simp [List.mem_cons, hix, hic]
          rw [if_neg hnotin, List.getD_eq_getElem?_getD,
            List.getElem?_set_ne (Ne.symm hix), ← List.getD_eq_getElem?_getD]

lemma cxOuter_child (p1 p2 : List ℕ) (hnd2 : p2.Nodup) (hperm : p2.Perm p1) :
    ∀ (fuel : ℕ) (remaining : List ℕ) (child : List (Option ℕ)),
      remaining.length ≤ fuel →
      child.length = p1.length →
      (∀ i ∈ remaining, i < p1.length) →
      (∀ i, i < p1.length → i ∉ remaining →
        child.getD i none = some (p1.getD i 0)) →
      ∃ ch, cxOuter p1 p2 fuel remaining child = some ch ∧
        ∀ i, i < p1.length → ch.getD i none = some (p1.getD i 0) := by
  intro fuel
  induction fuel with
  | zero =>
      intro remaining child hfuel hlen hrem hinv
      have hnil : remaining = [] := List.length_eq_zero.mp (by omega)
      subst hnil
      exact ⟨child, rfl, fun i hi => hinv i hi (by simp)⟩
  | succ fuel ih =>
      intro remaining child hfuel hlen hrem hinv
      cases remaining with
      | nil => exact ⟨child, rfl, fun i hi => hinv i hi (by simp)⟩
      | cons start rem =>
          have hstart : start < p1.length := hrem start (List.mem_cons_self _ _)
          obtain ⟨cyc, hcyc, hstartmem, hcyclt⟩ :=
            cxCycle_some p1 p2 hnd2 hperm start hstart
          rw [cxOuter, hcyc]
          have hlen' : (cyc.foldl (fun c j => c.set j (some (p1.getD j 0)))
              child).length = p1.length := by
            rw [foldl_set_length]; exact hlen
          have hfuel' : ((start :: rem).filter (fun i => !(cyc.contains i))).length
              ≤ fuel := by
            have hdrop : (start :: rem).filter (fun i => !(cyc.contains i)) =
                rem.filter (fun i => !(cyc.contains i)) := by
              rw [List.filter_cons]
              simp [hstartmem]
            rw [hdrop]
            calc (rem.filter (fun i => !(cyc.contains i))).length
                ≤ rem.length := List.length_filter_le _ _
              _ ≤ fuel := by simp only [List.length_cons] at hfuel; omega
          have hrem' : ∀ i ∈ (start :: rem).filter (fun i => !(cyc.contains i)),
              i < p1.length :=
            fun i hi => hrem i (List.mem_of_mem_filter hi)
          have hinv' : ∀ i, i < p1.length →
              i ∉ (start :: rem).filter (fun i => !(cyc.contains i)) →
              (cyc.foldl (fun c j => c.set j (some (p1.getD j 0))) child).getD i none =
                some (p1.getD i 0) := by
            intro i hi hnot
            rw [foldl_set_getD p1 cyc child i (by omega)]
            by_cases hic : i ∈ cyc
            · rw [if_pos hic]
            · rw [if_neg hic]
              apply hinv i hi
              intro hmem
              exact hnot (List.mem_filter.mpr ⟨hmem, by simpa using hic⟩)
          exact ih _ _ hfuel' hlen' hrem' hinv'

/-- For permutation parents, the CX outer loop copies `parent1`'s value at
    every index, so the child equals `parent1` (the alternation described
    by the spec never happens). -/
lemma cxChild_eq_parent (p1 p2 : List ℕ) (hnd1 : p1.Nodup) (hperm : p2.Perm p1) :
    cxChild p1 p2 = some p1 := by
  have hnd2 : p2.Nodup := hperm.nodup_iff.mpr hnd1
  obtain ⟨ch, hch, hall⟩ := cxOuter_child p1 p2 hnd2 hperm p1.length
    (List.range p1.length) (List.replicate p1.length none)
    (by simp) (by simp) (by simp)
    (fun i hi hnot => absurd (List.mem_range.mpr hi) hnot)
  unfold cxChild
  rw [hch]
  show some ((List.range p1.length).map
    (fun i => (ch.getD i none).getD (p2.getD i 0))) = some p1
  congr 1
  apply List.ext_getElem (by simp)
  intro i h1 h2
  simp only [List.getElem_map, List.getElem_range]
  have hi : i < p1.length := by simpa using h1
  rw [hall i hi]
  simp [List.getD_eq_getElem?_getD, List.getElem?_eq_getElem hi]

/-! ## C3: cycle crossover does not alternate the source parent -/

/-- C3 counterexample: for parents `[0,1,2,3]` and `[1,0,3,2]` (two cycles:
    `{0,1}` and `{2,3}`), the claimed construction that alternates the source
    parent per discovered cycle yields `[0,1,3,2]`, but the code copies every
    cycle from `parent1` and returns `[0,1,2,3]` — the child is an exact copy
    of the first parent. -/
theorem cx_no_alternation_counterexample :
    cxChild [0, 1, 2, 3] [1, 0, 3, 2] = some [0, 1, 2, 3] ∧
    cxAlternatingChild [0, 1, 2, 3] [1, 0, 3, 2] = some [0, 1, 3, 2] ∧
    cxChild [0, 1, 2, 3] [1, 0, 3, 2] ≠
      cxAlternatingChild [0, 1, 2, 3] [1, 0, 3, 2] := by
  refine ⟨by decide, by decide, by decide⟩

/-- C3 amended: for every pair of equal-length permutations over the same
    element set, `CycleCrossover.crossover` discovers the cycles of
    `value at p2[idx] → position of that value in p1`, but copies every
    discovered cycle from the first parent of each direction (no
    alternation), so the two children are exact copies of `p1` and `p2`
    respectively (each index still assigned from exactly one parent). -/
theorem cx_copies_primary_parent (p1 p2 : List ℕ) (hnd : p1.Nodup)
    (hperm : p2.Perm p1) : cxCrossover p1 p2 = (some p1, some p2) := by
  unfold cxCrossover
  rw [cxChild_eq_parent p1 p2 hnd hperm,
    cxChild_eq_parent p2 p1 (hperm.nodup_iff.mpr hnd) hperm.symm]

/-- Witness for the amended C3 at a concrete pair of permutations. -/
theorem cx_copies_primary_parent_witness :
    ([3, 0, 2, 1] : List ℕ).Nodup ∧ ([1, 2, 3, 0] : List ℕ).Perm [3, 0, 2, 1] ∧
    cxCrossover [3, 0, 2, 1] [1, 2, 3, 0] = (some [3, 0, 2, 1], some [1, 2, 3, 0]) :=
  ⟨by decide, by decide,
   cx_copies_primary_parent [3, 0, 2, 1] [1, 2, 3, 0] (by decide) (by decide)⟩

/-! ## C9 groundwork: PMX children are permutations

The PMX chase iterates the index map `pos ↦ p2.index(p1[pos])`, which is
the CX index map with the parents' roles swapped; for permutation parents
it is a bijection on `{0, …, n-1}`. -/

lemma pmxStep_eq_cxStep (p1 p2 : List ℕ) : pmxStep p1 p2 = cxStep p2 p1 := rfl

lemma pmxStep_lt (p1 p2 : List ℕ) (hperm : p2.Perm p1) (idx : ℕ)
    (hidx : idx < p1.length) : pmxStep p1 p2 idx < p1.length := by
  rw [pmxStep_eq_cxStep, ← hperm.length_eq]
  exact cxStep_lt p2 p1 hperm.symm idx (by rw [hperm.length_eq]; exact hidx)

lemma pmxStep_inj (p1 p2 : List ℕ) (hnd1 : p1.Nodup) (hperm : p2.Perm p1)
    (i j : ℕ) (hi : i < p1.length) (hj : j < p1.length)
    (h : pmxStep p1 p2 i = pmxStep p1 p2 j) : i = j := by
  rw [pmxStep_eq_cxStep] at h
  exact cxStep_inj p2 p1 hnd1 hperm.symm i j
    (by rw [hperm.length_eq]; exact hi) (by rw [hperm.length_eq]; exact hj) h

lemma pmxStep_val (p1 p2 : List ℕ) (hperm : p2.Perm p1) (x : ℕ)
    (hx : x < p1.length) : p2.getD (pmxStep p1 p2 x) 0 = p1.getD x 0 := by
  unfold pmxStep
  have hmem : p1.getD x 0 ∈ p2 := by
    rw [List.getD_eq_getElem _ _ hx]
    exact hperm.mem_iff.mpr (List.getElem_mem hx)
  have hlt := List.indexOf_lt_length.mpr hmem
  rw [List.getD_eq_getElem _ _ hlt, List.getElem_indexOf]

lemma pmxChase_exact (p1 p2 : List ℕ) (ch : List (Option ℕ)) :
    ∀ (r pos fuel : ℕ),
      (∀ j, 1 ≤ j → j ≤ r → ch.getD ((pmxStep p1 p2)^[j] pos) none ≠ none) →
      ch.getD ((pmxStep p1 p2)^[r + 1] pos) none = none →
      r + 1 ≤ fuel →
      pmxChase p1 p2 ch fuel pos = some ((pmxStep p1 p2)^[r + 1] pos) := by
  intro r
  induction r with
  | zero =>
      intro pos fuel _ hempty hfuel
      obtain ⟨fuel', rfl⟩ : ∃ f, fuel = f + 1 := ⟨fuel - 1, by omega⟩
      rw [pmxChase]
      rw [if_pos (by simpa using hempty)]
      simp
  | succ r ih =>
      intro pos fuel hfill hempty hfuel
      obtain ⟨fuel', rfl⟩ : ∃ f, fuel = f + 1 := ⟨fuel - 1, by omega⟩
      rw [pmxChase]
      rw [if_neg (by simpa using hfill 1 (by omega) (by omega))]
      have hfill' : ∀ j, 1 ≤ j → j ≤ r →
          ch.getD ((pmxStep p1 p2)^[j] (pmxStep p1 p2 pos)) none ≠ none := by
        intro j hj1 hjr
        rw [← Function.iterate_succ_apply]
        exact hfill (j + 1) (by omega) (by omega)
      have hempty' : ch.getD ((pmxStep p1 p2)^[r + 1] (pmxStep p1 p2 pos)) none
          = none := by
        rw [← Function.iterate_succ_apply]
        exact hempty
      rw [ih (pmxStep p1 p2 pos) fuel' hfill' hempty' (by omega),
        ← Function.iterate_succ_apply]

lemma oxWindowList_getD (a b : ℕ) (p1 : List ℕ) (hab : a ≤ b) (hb : b ≤ p1.length)
    (i : ℕ) :
    (oxWindowList a b p1).getD i none =
      if a ≤ i ∧ i < b then some (p1.getD i 0) else none := by
  unfold oxWindowList
  rw [List.getD_eq_getElem?_getD]
  have houter : (List.replicate a (none : Option ℕ) ++
      ((p1.take b).drop a).map some).length = b := by
    simp only [List.length_append, List.length_replicate, List.length_map,
      List.length_drop, List.length_take]
    omega
  by_cases hib : i < b
  · rw [List.getElem?_append_left (by rw [houter]; exact hib)]
    by_cases hia : i < a
    · rw [List.getElem?_append_left (by simpa using hia), List.getElem?_replicate,
        if_pos hia, if_neg (by omega)]
      rfl
    · rw [List.getElem?_append_right (by simpa using hia)]
      simp only [List.length_replicate]
      rw [List.getElem?_map, List.getElem?_drop, List.getElem?_take]
      rw [if_pos (show a + (i - a) < b by omega)]
      have hsum : a + (i - a) = i := by omega
      rw [hsum, List.getElem?_eq_getElem (by omega : i < p1.length)]
      rw [if_pos (by omega)]
      simp [List.getD_eq_getElem?_getD,
        List.getElem?_eq_getElem (show i < p1.length by omega)]
  · rw [List.getElem?_append_right (by rw [houter]; omega), houter,
      List.getElem?_replicate]
    rw [if_neg (show ¬(a ≤ i ∧ i < b) by omega)]
    split_ifs <;> rfl

lemma mem_of_getD_some {ch : List (Option ℕ)} {i : ℕ} {v : ℕ}
    (h : ch.getD i none = some v) : (some v) ∈ ch := by
  by_cases hi : i < ch.length
  · rw [List.getD_eq_getElem _ _ hi] at h
    exact h ▸ List.getElem_mem hi
  · rw [List.getD_eq_getElem?_getD, List.getElem?_eq_none (by omega)] at h
    simp at h

lemma contains_some_iff (ch : List (Option ℕ)) (v : ℕ) :
    ch.contains (some v) = true ↔ (some v) ∈ ch := by
  show ch.elem (some v) = true ↔ _
  exact List.elem_iff

lemma getD_set_self {ch : List (Option ℕ)} {i : ℕ} (v : Option ℕ)
    (hi : i < ch.length) : (ch.set i v).getD i none = v := by
  rw [List.getD_eq_getElem?_getD, List.getElem?_set_self hi]
  rfl

lemma getD_set_ne {ch : List (Option ℕ)} {i j : ℕ} (v : Option ℕ)
    (hij : i ≠ j) : (ch.set i v).getD j none = ch.getD j none := by
  rw [List.getD_eq_getElem?_getD, List.getElem?_set_ne hij,
    ← List.getD_eq_getElem?_getD]

lemma pmx_exit_unique (p1 p2 : List ℕ) (a b : ℕ) (hnd1 : p1.Nodup)
    (hperm : p2.Perm p1) (hb : b ≤ p1.length) (u r u' r' : ℕ)
    (hu : a ≤ u ∧ u < b) (hu' : a ≤ u' ∧ u' < b)
    (hpath : ∀ j, 1 ≤ j → j ≤ r →
      a ≤ (pmxStep p1 p2)^[j] u ∧ (pmxStep p1 p2)^[j] u < b)
    (hpath' : ∀ j, 1 ≤ j → j ≤ r' →
      a ≤ (pmxStep p1 p2)^[j] u' ∧ (pmxStep p1 p2)^[j] u' < b)
    (heq : (pmxStep p1 p2)^[r + 1] u = (pmxStep p1 p2)^[r' + 1] u')
    (hfresh : ∀ w, a ≤ w → w < b → p2.getD u 0 ≠ p1.getD w 0)
    (hfresh' : ∀ w, a ≤ w → w < b → p2.getD u' 0 ≠ p1.getD w 0) :
    u = u' := by
  have hclo : ∀ i, i < p1.length → pmxStep p1 p2 i < p1.length :=
    fun i hi => pmxStep_lt p1 p2 hperm i hi
  have hinj : ∀ i j, i < p1.length → j < p1.length →
      pmxStep p1 p2 i = pmxStep p1 p2 j → i = j :=
    fun i j hi hj h => pmxStep_inj p1 p2 hnd1 hperm i j hi hj h
  have hun : u < p1.length := by omega
  have hun' : u' < p1.length := by omega
  rcases Nat.le_total r' r with hrr | hrr
  · -- r' ≤ r : cancel r' + 1 from both sides
    have hsplit : (pmxStep p1 p2)^[r' + 1] ((pmxStep p1 p2)^[r - r'] u) =
        (pmxStep p1 p2)^[r' + 1] u' := by
      rw [← Function.iterate_add_apply]
      have : r' + 1 + (r - r') = r + 1 := by omega
      rw [this]
      exact heq
    have hd := iterate_inj_cancel (pmxStep p1 p2) p1.length hclo hinj (r' + 1)
      _ _ (iterate_lt _ _ hclo (r - r') u hun) hun' hsplit
    rcases Nat.eq_zero_or_pos (r - r') with hd0 | hd0
    · rw [hd0] at hd
      exact hd
    · exfalso
      obtain ⟨d, hdd⟩ : ∃ d, r - r' = d + 1 := ⟨r - r' - 1, by omega⟩
      have hwin : a ≤ (pmxStep p1 p2)^[d] u ∧ (pmxStep p1 p2)^[d] u < b := by
        rcases Nat.eq_zero_or_pos d with h0 | h0
        · rw [h0]
          simpa using hu
        · exact hpath _ (by omega) (by omega)
      have hval : p2.getD u' 0 = p1.getD ((pmxStep p1 p2)^[d] u) 0 := by
        rw [← hd, hdd, Function.iterate_succ_apply']
        exact pmxStep_val p1 p2 hperm _ (iterate_lt _ _ hclo _ u hun)
      exact hfresh' _ hwin.1 hwin.2 hval
  · -- r ≤ r' : symmetric
    have hsplit : (pmxStep p1 p2)^[r + 1] ((pmxStep p1 p2)^[r' - r] u') =
        (pmxStep p1 p2)^[r + 1] u := by
      rw [← Function.iterate_add_apply]
      have : r + 1 + (r' - r) = r' + 1 := by omega
      rw [this]
      exact heq.symm
    have hd := iterate_inj_cancel (pmxStep p1 p2) p1.length hclo hinj (r + 1)
      _ _ (iterate_lt _ _ hclo (r' - r) u' hun') hun hsplit
    rcases Nat.eq_zero_or_pos (r' - r) with hd0 | hd0
    · rw [hd0] at hd
      exact hd.symm
    · exfalso
      obtain ⟨d, hdd⟩ : ∃ d, r' - r = d + 1 := ⟨r' - r - 1, by omega⟩
      have hwin : a ≤ (pmxStep p1 p2)^[d] u' ∧ (pmxStep p1 p2)^[d] u' < b := by
        rcases Nat.eq_zero_or_pos d with h0 | h0
        · rw [h0]
          simpa using hu'
        · exact hpath' _ (by omega) (by omega)
      have hval : p2.getD u 0 = p1.getD ((pmxStep p1 p2)^[d] u') 0 := by
        rw [← hd, hdd, Function.iterate_succ_apply']
        exact pmxStep_val p1 p2 hperm _ (iterate_lt _ _ hclo _ u' hun')
      exact hfresh _ hwin.1 hwin.2 hval

lemma pmx_exit_exists (p1 p2 : List ℕ) (a b : ℕ) (hnd1 : p1.Nodup)
    (hperm : p2.Perm p1) (hb : b ≤ p1.length) (u : ℕ) (hu : a ≤ u ∧ u < b)
    (hfresh : ∀ w, a ≤ w → w < b → p2.getD u 0 ≠ p1.getD w 0) :
    ∃ r, (∀ j, 1 ≤ j → j ≤ r →
        a ≤ (pmxStep p1 p2)^[j] u ∧ (pmxStep p1 p2)^[j] u < b) ∧
      ¬(a ≤ (pmxStep p1 p2)^[r + 1] u ∧ (pmxStep p1 p2)^[r + 1] u < b) ∧
      r + 1 ≤ p1.length := by
  have hclo : ∀ i, i < p1.length → pmxStep p1 p2 i < p1.length :=
    fun i hi => pmxStep_lt p1 p2 hperm i hi
  have hinj : ∀ i j, i < p1.length → j < p1.length →
      pmxStep p1 p2 i = pmxStep p1 p2 j → i = j :=
    fun i j hi hj h => pmxStep_inj p1 p2 hnd1 hperm i j hi hj h
  have hun : u < p1.length := by omega
  obtain ⟨m, hm0, hmn, hmret⟩ :=
    orbit_returns (pmxStep p1 p2) p1.length hclo hinj u hun
  have hex : ∃ j, 1 ≤ j ∧ j ≤ m ∧
      ¬(a ≤ (pmxStep p1 p2)^[j] u ∧ (pmxStep p1 p2)^[j] u < b) := by
    by_contra hall
    push_neg at hall
    have hx : a ≤ (pmxStep p1 p2)^[m - 1] u ∧ (pmxStep p1 p2)^[m - 1] u < b := by
      rcases Nat.eq_zero_or_pos (m - 1) with h0 | h0
      · rw [h0]
        simpa using hu
      · exact hall (m - 1) (by omega) (by omega)
    have hval : p2.getD u 0 = p1.getD ((pmxStep p1 p2)^[m - 1] u) 0 := by
      conv_lhs => rw [← hmret]
      have hm1 : m = (m - 1) + 1 := by omega
      rw [hm1, Function.iterate_succ_apply']
      exact pmxStep_val p1 p2 hperm _ (iterate_lt _ _ hclo _ u hun)
    exact hfresh _ hx.1 hx.2 hval
  classical
  obtain ⟨j₀, hj1, hjm, hjexit⟩ := hex
  -- take the least exit index
  have hexP : ∃ j, 1 ≤ j ∧
      ¬(a ≤ (pmxStep p1 p2)^[j] u ∧ (pmxStep p1 p2)^[j] u < b) :=
    ⟨j₀, hj1, hjexit⟩
  have hfind := Nat.find_spec hexP
  have hfindle : Nat.find hexP ≤ j₀ := Nat.find_min' hexP ⟨hj1, hjexit⟩
  refine ⟨Nat.find hexP - 1, ?_, ?_, by omega⟩
  · intro j h1j hjr
    have hlt : j < Nat.find hexP := by omega
    have := Nat.find_min hexP hlt
    push_neg at this
    by_contra hcon
    exact hcon (this h1j)
  · have h1 : Nat.find hexP - 1 + 1 = Nat.find hexP := by omega
    rw [h1]
    exact hfind.2

lemma pmxPhase_invariant (p1 p2 : List ℕ) (a b : ℕ) (hnd1 : p1.Nodup)
    (hperm : p2.Perm p1) (hb : b ≤ p1.length) :
    ∀ (pending : List ℕ), ∀ (done : List ℕ) (ch : List (Option ℕ)),
      (∀ i ∈ pending, a ≤ i ∧ i < b) →
      (∀ i ∈ done, a ≤ i ∧ i < b) →
      (∀ i ∈ pending, i ∉ done) →
      pending.Nodup →
      ch.length = p1.length →
      (∀ w, a ≤ w → w < b → ch.getD w none = some (p1.getD w 0)) →
      (∀ v, (some v) ∈ ch →
        (∃ w, (a ≤ w ∧ w < b) ∧ v = p1.getD w 0) ∨ ∃ i ∈ done, v = p2.getD i 0) →
      (∀ i j v, i < p1.length → j < p1.length → ch.getD i none = some v →
        ch.getD j none = some v → i = j) →
      (∀ s, s < p1.length → ¬(a ≤ s ∧ s < b) → ch.getD s none ≠ none →
        ∃ u r, u ∈ done ∧
          (∀ j, 1 ≤ j → j ≤ r →
            a ≤ (pmxStep p1 p2)^[j] u ∧ (pmxStep p1 p2)^[j] u < b) ∧
          s = (pmxStep p1 p2)^[r + 1] u ∧
          (∀ w, a ≤ w → w < b → p2.getD u 0 ≠ p1.getD w 0)) →
      ∃ chf, pmxPhase p1 p2 pending ch = some chf ∧
        chf.length = p1.length ∧
        (∀ w, a ≤ w → w < b → chf.getD w none = some (p1.getD w 0)) ∧
        (∀ v, (some v) ∈ chf →
          (∃ w, (a ≤ w ∧ w < b) ∧ v = p1.getD w 0) ∨
          ∃ i, (i ∈ done ∨ i ∈ pending) ∧ v = p2.getD i 0) ∧
        (∀ i j v, i < p1.length → j < p1.length → chf.getD i none = some v →
          chf.getD j none = some v → i = j) ∧
        (∀ s, ch.getD s none ≠ none → chf.getD s none = ch.getD s none) ∧
        (∀ u r, u ∈ pending →
          (∀ j, 1 ≤ j → j ≤ r →
            a ≤ (pmxStep p1 p2)^[j] u ∧ (pmxStep p1 p2)^[j] u < b) →
          ¬(a ≤ (pmxStep p1 p2)^[r + 1] u ∧ (pmxStep p1 p2)^[r + 1] u < b) →
          (∀ w, a ≤ w → w < b → p2.getD u 0 ≠ p1.getD w 0) →
          chf.getD ((pmxStep p1 p2)^[r + 1] u) none ≠ none) := by
  have hnd2 : p2.Nodup := hperm.nodup_iff.mpr hnd1
  intro pending
  induction pending with
  | nil =>
      intro done ch hpend hdone hdisj hnodup hlen hwin hvals hinj hprov
      refine ⟨ch, rfl, hlen, hwin, ?_, hinj, fun s _ => rfl, ?_⟩
      · intro v hv
        rcases hvals v hv with h | ⟨i, hi, hv⟩
        · exact Or.inl h
        · exact Or.inr ⟨i, Or.inl hi, hv⟩
      · intro u r hu
        simp at hu
  | cons u rest ih =>
      intro done ch hpend hdone hdisj hnodup hlen hwin hvals hinj hprov
      have hu : a ≤ u ∧ u < b := hpend u (List.mem_cons_self _ _)
      have hun : u < p1.length := by omega
      rw [pmxPhase]
      by_cases htrig : ch.contains (some (p2.getD u 0)) = true
      · -- parent2[u] already in the child: skip this index
        rw [if_pos htrig]
        obtain ⟨chf, hphase, hlenf, hwinf, hvalsf, hinjf, hmonof, hfillf⟩ :=
          ih done ch (fun i hi => hpend i (List.mem_cons_of_mem _ hi)) hdone
            (fun i hi => hdisj i (List.mem_cons_of_mem _ hi))
            (List.Nodup.of_cons hnodup) hlen hwin hvals hinj hprov
        refine ⟨chf, hphase, hlenf, hwinf, ?_, hinjf, hmonof, ?_⟩
        · intro v hv
          rcases hvalsf v hv with h | ⟨i, hi, hv⟩
          · exact Or.inl h
          · rcases hi with hi | hi
            · exact Or.inr ⟨i, Or.inl hi, hv⟩
            · exact Or.inr ⟨i, Or.inr (List.mem_cons_of_mem _ hi), hv⟩
        · intro u₀ r hu₀ hpath hexit hfresh
          rcases List.mem_cons.mp hu₀ with rfl | hu₀
          · -- the skipped index: its trigger premises are contradictory
            exfalso
            have hmem := (contains_some_iff ch (p2.getD u₀ 0)).mp htrig
            rcases hvals _ hmem with ⟨w, hw, hval⟩ | ⟨i, hi, hval⟩
            · exact hfresh w hw.1 hw.2 hval
            · have hib : i < p1.length := by
                have := hdone i hi
                omega
              have : u₀ = i := by
                have h1 : u₀ < p2.length := by rw [hperm.length_eq]; omega
                have h2 : i < p2.length := by rw [hperm.length_eq]; omega
                rw [List.getD_eq_getElem _ _ h1, List.getD_eq_getElem _ _ h2] at hval
                exact hnd2.getElem_inj_iff.mp hval
              exact hdisj u₀ (List.mem_cons_self _ _) (this ▸ hi)
          · exact hfillf u₀ r hu₀ hpath hexit hfresh
      · -- parent2[u] not yet in the child: chase and place
        rw [if_neg htrig]
        have hnomem : (some (p2.getD u 0)) ∉ ch := fun hmem =>
          htrig ((contains_some_iff ch (p2.getD u 0)).mpr hmem)
        have hfresh_u : ∀ w, a ≤ w → w < b → p2.getD u 0 ≠ p1.getD w 0 := by
          intro w hwa hwb hval
          exact hnomem (hval ▸ mem_of_getD_some (hwin w hwa hwb))
        obtain ⟨r₀, hpath₀, hexit₀, hr₀⟩ :=
          pmx_exit_exists p1 p2 a b hnd1 hperm hb u hu hfresh_u
        set e := (pmxStep p1 p2)^[r₀ + 1] u with hedef
        have helt : e < p1.length := by
          have hclo : ∀ i, i < p1.length → pmxStep p1 p2 i < p1.length :=
            fun i hi => pmxStep_lt p1 p2 hperm i hi
          exact iterate_lt _ _ hclo (r₀ + 1) u hun
        have hempty : ch.getD e none = none := by
          by_contra hne
          obtain ⟨u', r', hu'd, hpath', heq', hfresh'⟩ :=
            hprov e helt hexit₀ hne
          have : u = u' :=
            pmx_exit_unique p1 p2 a b hnd1 hperm hb u r₀ u' r' hu (hdone u' hu'd)
              hpath₀ hpath' (by rw [← hedef, heq']) hfresh_u hfresh'
          exact hdisj u (List.mem_cons_self _ _) (this ▸ hu'd)
        have hchase : pmxChase p1 p2 ch (p1.length + 1) u = some e := by
          apply pmxChase_exact p1 p2 ch r₀ u (p1.length + 1)
          · intro j h1j hjr
            have hw := hpath₀ j h1j hjr
            rw [hwin _ hw.1 hw.2]
            simp
          · exact hempty
          · omega
        rw [hchase]
        -- the recursive call on the updated child
        have hlen' : (ch.set e (some (p2.getD u 0))).length = p1.length := by
          rw [List.length_set]
          exact hlen
        have hwin' : ∀ w, a ≤ w → w < b →
            (ch.set e (some (p2.getD u 0))).getD w none = some (p1.getD w 0) := by
          intro w hwa hwb
          rw [getD_set_ne _ (by omega)]
          exact hwin w hwa hwb
        have hvals' : ∀ v, (some v) ∈ ch.set e (some (p2.getD u 0)) →
            (∃ w, (a ≤ w ∧ w < b) ∧ v = p1.getD w 0) ∨
            ∃ i ∈ done ++ [u], v = p2.getD i 0 := by
          intro v hv
          rcases List.mem_or_eq_of_mem_set hv with hv | hv
          · rcases hvals v hv with h | ⟨i, hi, hval⟩
            · exact Or.inl h
            · exact Or.inr ⟨i, List.mem_append_left _ hi, hval⟩
          · refine Or.inr ⟨u, List.mem_append_right _ (List.mem_singleton_self u), ?_⟩
            simpa using hv
        have hgetD_notval : ∀ j, ch.getD j none ≠ some (p2.getD u 0) := by
          intro j hj
          exact hnomem (mem_of_getD_some hj)
        have hinj' : ∀ i j v, i < p1.length → j < p1.length →
            (ch.set e (some (p2.getD u 0))).getD i none = some v →
            (ch.set e (some (p2.getD u 0))).getD j none = some v → i = j := by
          intro i j v hi hj hgi hgj
          by_cases hie : i = e <;> by_cases hje : j = e
          · rw [hie, hje]
          · exfalso
            rw [hie, getD_set_self _ (by omega)] at hgi
            rw [getD_set_ne _ (fun h => hje h.symm)] at hgj
            rw [← hgi] at hgj
            exact hgetD_notval j hgj
          · exfalso
            rw [hje, getD_set_self _ (by omega)] at hgj
            rw [getD_set_ne _ (fun h => hie h.symm)] at hgi
            rw [← hgj] at hgi
            exact hgetD_notval i hgi
          · rw [getD_set_ne _ (fun h => hie h.symm)] at hgi
            rw [getD_set_ne _ (fun h => hje h.symm)] at hgj
            exact hinj i j v hi hj hgi hgj
        have hprov' : ∀ s, s < p1.length → ¬(a ≤ s ∧ s < b) →
            (ch.set e (some (p2.getD u 0))).getD s none ≠ none →
            ∃ u' r', u' ∈ done ++ [u] ∧
              (∀ j, 1 ≤ j → j ≤ r' →
                a ≤ (pmxStep p1 p2)^[j] u' ∧ (pmxStep p1 p2)^[j] u' < b) ∧
              s = (pmxStep p1 p2)^[r' + 1] u' ∧
              (∀ w, a ≤ w → w < b → p2.getD u' 0 ≠ p1.getD w 0) := by
          intro s hs hsw hsne
          by_cases hse : s = e
          · exact ⟨u, r₀, List.mem_append_right _ (List.mem_singleton_self u),
              hpath₀, by rw [hse], hfresh_u⟩
          · rw [getD_set_ne _ (fun h => hse h.symm)] at hsne
            obtain ⟨u', r', hu'd, hp', he', hf'⟩ := hprov s hs hsw hsne
            exact ⟨u', r', List.mem_append_left _ hu'd, hp', he', hf'⟩
        obtain ⟨chf, hphase, hlenf, hwinf, hvalsf, hinjf, hmonof, hfillf⟩ :=
          ih (done ++ [u]) (ch.set e (some (p2.getD u 0)))
            (fun i hi => hpend i (List.mem_cons_of_mem _ hi))
            (by
              intro i hi
              rcases List.mem_append.mp hi with hi | hi
              · exact hdone i hi
              · rw [List.mem_singleton.mp hi]
                exact hu)
            (by
              intro i hi hidone
              rcases List.mem_append.mp hidone with hd | hd
              · exact hdisj i (List.mem_cons_of_mem _ hi) hd
              · rw [List.mem_singleton.mp hd] at hi
                exact (List.Nodup.not_mem hnodup) hi)
            (List.Nodup.of_cons hnodup) hlen' hwin' hvals' hinj' hprov'
        refine ⟨chf, hphase, hlenf, hwinf, ?_, hinjf, ?_, ?_⟩
        · intro v hv
          rcases hvalsf v hv with h | ⟨i, hi, hval⟩
          · exact Or.inl h
          · rcases hi with hi | hi
            · rcases List.mem_append.mp hi with hi | hi
              · exact Or.inr ⟨i, Or.inl hi, hval⟩
              · rw [List.mem_singleton.mp hi] at hval
                exact Or.inr ⟨u, Or.inr (List.mem_cons_self _ _), hval⟩
            · exact Or.inr ⟨i, Or.inr (List.mem_cons_of_mem _ hi), hval⟩
        · -- monotonicity composes through the placement
          intro s hsne
          have hse : s ≠ e := by
            intro h
            rw [h, hempty] at hsne
            exact hsne rfl
          have h1 : (ch.set e (some (p2.getD u 0))).getD s none = ch.getD s none :=
            getD_set_ne _ (fun h => hse h.symm)
          rw [hmonof s (by rw [h1]; exact hsne), h1]
        · -- the fill property
          intro u₀ r hu₀ hpath hexit hfresh
          rcases List.mem_cons.mp hu₀ with rfl | hu₀
          · -- the index just processed: its exit is exactly e
            have hre : r = r₀ := by
              by_contra hne
              rcases Nat.lt_or_ge r r₀ with hlt | hge
              · exact hexit (hpath₀ (r + 1) (by omega) (by omega))
              · have hgt : r₀ < r := by omega
                exact hexit₀ (hpath (r₀ + 1) (by omega) (by omega))
            rw [hre, ← hedef]
            have h1 : (ch.set e (some (p2.getD u₀ 0))).getD e none =
                some (p2.getD u₀ 0) := getD_set_self _ (by omega)
            rw [hmonof e (by rw [h1]; simp), h1]
            simp
          · exact hfillf u₀ r hu₀ hpath hexit hfresh

lemma indexOf_getD_self (p2 : List ℕ) (hnd2 : p2.Nodup) (j : ℕ)
    (hj : j < p2.length) : p2.indexOf (p2.getD j 0) = j := by
  have hmem : p2.getD j 0 ∈ p2 := by
    rw [List.getD_eq_getElem _ _ hj]
    exact List.getElem_mem hj
  have hlt := List.indexOf_lt_length.mpr hmem
  apply hnd2.getElem_inj_iff.mp
  rw [List.getElem_indexOf hlt, List.getD_eq_getElem _ _ hj]

lemma oxWindowList_length (a b : ℕ) (p1 : List ℕ) (hab : a ≤ b)
    (hb : b ≤ p1.length) : (oxWindowList a b p1).length = p1.length := by
  simp only [oxWindowList, List.length_append, List.length_replicate,
    List.length_map, List.length_drop, List.length_take]
  omega

lemma pmx_backward_exit (p1 p2 : List ℕ) (a b : ℕ) (hnd1 : p1.Nodup)
    (hperm : p2.Perm p1) (hb : b ≤ p1.length) (w : ℕ) (hw : a ≤ w ∧ w < b)
    (hexitw : ¬(a ≤ pmxStep p1 p2 w ∧ pmxStep p1 p2 w < b)) :
    ∃ u r, (a ≤ u ∧ u < b) ∧
      (∀ j, 1 ≤ j → j ≤ r →
        a ≤ (pmxStep p1 p2)^[j] u ∧ (pmxStep p1 p2)^[j] u < b) ∧
      (pmxStep p1 p2)^[r + 1] u = pmxStep p1 p2 w ∧
      (∀ w', a ≤ w' → w' < b → p2.getD u 0 ≠ p1.getD w' 0) := by
  classical
  have hclo : ∀ i, i < p1.length → pmxStep p1 p2 i < p1.length :=
    fun i hi => pmxStep_lt p1 p2 hperm i hi
  have hinj : ∀ i j, i < p1.length → j < p1.length →
      pmxStep p1 p2 i = pmxStep p1 p2 j → i = j :=
    fun i j hi hj h => pmxStep_inj p1 p2 hnd1 hperm i j hi hj h
  have hwn : w < p1.length := by omega
  obtain ⟨m, hm0, hmn, hmret⟩ :=
    orbit_returns (pmxStep p1 p2) p1.length hclo hinj w hwn
  -- B t := iterate (m - t) of w; B 0 = w is in the window, B (m-1) = step w is not
  have hQex : ∃ t, ¬(a ≤ (pmxStep p1 p2)^[m - t] w ∧ (pmxStep p1 p2)^[m - t] w < b) := by
    refine ⟨m - 1, ?_⟩
    have h1 : m - (m - 1) = 1 := by omega
    rw [h1]
    simpa using hexitw
  have ht₀ := Nat.find_spec hQex
  have ht₀le : Nat.find hQex ≤ m - 1 := Nat.find_min' hQex (by
    have h1 : m - (m - 1) = 1 := by omega
    rw [h1]
    simpa using hexitw)
  have ht₀pos : 0 < Nat.find hQex := by
    rcases Nat.eq_zero_or_pos (Nat.find hQex) with h0 | h0
    · exfalso
      have := ht₀
      rw [h0] at this
      simp only [Nat.sub_zero] at this
      rw [hmret] at this
      exact this hw
    · exact h0
  set t₀ := Nat.find hQex with ht₀def
  refine ⟨(pmxStep p1 p2)^[m - (t₀ - 1)] w, t₀ - 1, ?_, ?_, ?_, ?_⟩
  · -- u is in the window (by minimality of t₀)
    have := Nat.find_min hQex (show t₀ - 1 < t₀ by omega)
    push_neg at this
    simpa using not_not.mp (by simpa using this)
  · intro j h1j hjr
    have harith : (pmxStep p1 p2)^[j] ((pmxStep p1 p2)^[m - (t₀ - 1)] w) =
        (pmxStep p1 p2)^[m - (t₀ - 1 - j)] w := by
      rw [← Function.iterate_add_apply]
      congr 1
      omega
    rw [harith]
    have := Nat.find_min hQex (show t₀ - 1 - j < t₀ by omega)
    push_neg at this
    simpa using not_not.mp (by simpa using this)
  · have harith : (pmxStep p1 p2)^[t₀ - 1 + 1] ((pmxStep p1 p2)^[m - (t₀ - 1)] w) =
        (pmxStep p1 p2)^[m + 1] w := by
      rw [← Function.iterate_add_apply]
      congr 1
      omega
    rw [harith]
    have : (pmxStep p1 p2)^[m + 1] w = pmxStep p1 p2 ((pmxStep p1 p2)^[m] w) := by
      rw [Function.iterate_succ_apply']
    rw [this, hmret]
  · -- freshness: the backward predecessor of u lies outside the window
    intro w' hw'a hw'b hval
    have hpred : pmxStep p1 p2 ((pmxStep p1 p2)^[m - t₀] w) =
        (pmxStep p1 p2)^[m - (t₀ - 1)] w := by
      have h1 : m - (t₀ - 1) = (m - t₀) + 1 := by omega
      rw [h1, Function.iterate_succ_apply']
    have hx : (pmxStep p1 p2)^[m - t₀] w < p1.length :=
      iterate_lt _ _ hclo _ w hwn
    have hval2 : p2.getD ((pmxStep p1 p2)^[m - (t₀ - 1)] w) 0 =
        p1.getD ((pmxStep p1 p2)^[m - t₀] w) 0 := by
      rw [← hpred]
      exact pmxStep_val p1 p2 hperm _ hx
    rw [hval2] at hval
    have hxw : (pmxStep p1 p2)^[m - t₀] w = w' := by
      have h1 : (pmxStep p1 p2)^[m - t₀] w < p1.length := hx
      have h2 : w' < p1.length := by omega
      rw [List.getD_eq_getElem _ _ h1, List.getD_eq_getElem _ _ h2] at hval
      exact hnd1.getElem_inj_iff.mp hval
    exact ht₀ (hxw ▸ ⟨hw'a, hw'b⟩)

lemma pmxChild_perm (a b : ℕ) (p1 p2 : List ℕ) (hnd1 : p1.Nodup)
    (hperm : p2.Perm p1) (hab : a ≤ b) (hb : b ≤ p1.length) :
    ∃ c, pmxChild a b p1 p2 = some c ∧ c.Perm p1 := by
  have hnd2 : p2.Nodup := hperm.nodup_iff.mpr hnd1
  have hlen2 : p2.length = p1.length := hperm.length_eq
  have hmemrange : ∀ i, i ∈ List.range' a (b - a) ↔ a ≤ i ∧ i < b := by
    intro i
    rw [List.mem_range']
    constructor
    · rintro ⟨k, hk, rfl⟩
      omega
    · intro h
      exact ⟨i - a, by omega, by omega⟩
  have hp2inj : ∀ i j, i < p1.length → j < p1.length →
      p2.getD i 0 = p2.getD j 0 → i = j := by
    intro i j hi hj h
    rw [List.getD_eq_getElem _ _ (by omega : i < p2.length),
      List.getD_eq_getElem _ _ (by omega : j < p2.length)] at h
    exact hnd2.getElem_inj_iff.mp h
  obtain ⟨chf, hphase, hlenf, hwinf, hvalsf, hinjf, hmonof, hfillf⟩ :=
    pmxPhase_invariant p1 p2 a b hnd1 hperm hb (List.range' a (b - a)) []
      (oxWindowList a b p1)
      (fun i hi => (hmemrange i).mp hi)
      (by simp)
      (by simp)
      (List.nodup_range' a (b - a))
      (oxWindowList_length a b p1 hab hb)
      (fun w hwa hwb => by
        rw [oxWindowList_getD a b p1 hab hb w, if_pos ⟨hwa, hwb⟩])
      (by
        intro v hv
        rw [List.mem_iff_getElem] at hv
        obtain ⟨i, hilen, hi⟩ := hv
        have hgd : (oxWindowList a b p1).getD i none = some v := by
          rw [List.getD_eq_getElem _ _ hilen, hi]
        rw [oxWindowList_getD a b p1 hab hb i] at hgd
        by_cases hiw : a ≤ i ∧ i < b
        · rw [if_pos hiw] at hgd
          have hgd' : p1.getD i 0 = v := by simpa using hgd
          exact Or.inl ⟨i, hiw, hgd'.symm⟩
        · rw [if_neg hiw] at hgd
          simp at hgd)
      (by
        intro i j v hi hj hgi hgj
        rw [oxWindowList_getD a b p1 hab hb i] at hgi
        rw [oxWindowList_getD a b p1 hab hb j] at hgj
        by_cases h1 : a ≤ i ∧ i < b
        · by_cases h2 : a ≤ j ∧ j < b
          · rw [if_pos h1] at hgi
            rw [if_pos h2] at hgj
            have e1 : p1.getD i 0 = v := by simpa using hgi
            have e2 : p1.getD j 0 = v := by simpa using hgj
            rw [List.getD_eq_getElem _ _ hi] at e1
            rw [List.getD_eq_getElem _ _ hj] at e2
            exact hnd1.getElem_inj_iff.mp (by rw [e1, e2])
          · rw [if_neg h2] at hgj
            simp at hgj
        · rw [if_neg h1] at hgi
          simp at hgi)
      (by
        intro s hs hsw hsne
        rw [oxWindowList_getD a b p1 hab hb s, if_neg hsw] at hsne
        exact absurd rfl hsne)
  refine ⟨(List.range p1.length).map
    (fun i => (chf.getD i none).getD (p2.getD i 0)), ?_, ?_⟩
  · unfold pmxChild
    rw [hphase]
  · -- the collected child is a permutation of p1
    have hkey : ∀ j, j < p1.length → chf.getD j none = none →
        ∀ v, (some v) ∈ chf → v ≠ p2.getD j 0 := by
      intro j hj hjnone v hv hveq
      have hjw : ¬(a ≤ j ∧ j < b) := by
        intro hjw
        rw [hwinf j hjw.1 hjw.2] at hjnone
        simp at hjnone
      rcases hvalsf v hv with ⟨w, hw, hval⟩ | ⟨i, hi, hval⟩
      · have hpj : p2.getD j 0 = p1.getD w 0 := by rw [← hveq, hval]
        have hstepw : pmxStep p1 p2 w = j := by
          unfold pmxStep
          rw [← hpj]
          exact indexOf_getD_self p2 hnd2 j (by omega)
        have hexitw : ¬(a ≤ pmxStep p1 p2 w ∧ pmxStep p1 p2 w < b) := by
          rw [hstepw]
          exact hjw
        obtain ⟨u, r, hu, hpath, hexiteq, hfresh⟩ :=
          pmx_backward_exit p1 p2 a b hnd1 hperm hb w hw hexitw
        have hfill := hfillf u r ((hmemrange u).mpr hu) hpath
          (by rw [hexiteq, hstepw]; exact hjw) hfresh
        rw [hexiteq, hstepw] at hfill
        exact hfill hjnone
      · have hiw : a ≤ i ∧ i < b := by
          rcases hi with hi | hi
          · simp at hi
          · exact (hmemrange i).mp hi
        have hij : i = j := hp2inj i j (by omega) hj (by rw [← hval, hveq])
        exact hjw (hij ▸ hiw)
    have hnodupc : ((List.range p1.length).map
        (fun i => (chf.getD i none).getD (p2.getD i 0))).Nodup := by
      apply List.Nodup.map_on ?_ (List.nodup_range _)
      intro i hi j hj hfij
      rw [List.mem_range] at hi hj
      rcases h1 : chf.getD i none with _ | vi <;>
        rcases h2 : chf.getD j none with _ | vj
      · rw [h1, h2] at hfij
        simp only [Option.getD_none] at hfij
        exact hp2inj i j hi hj hfij
      · rw [h1, h2] at hfij
        simp only [Option.getD_none, Option.getD_some] at hfij
        exact absurd hfij.symm (hkey i hi h1 vj (mem_of_getD_some h2))
      · rw [h1, h2] at hfij
        simp only [Option.getD_none, Option.getD_some] at hfij
        exact absurd hfij (hkey j hj h2 vi (mem_of_getD_some h1))
      · rw [h1, h2] at hfij
        simp only [Option.getD_some] at hfij
        exact hinjf i j vi hi hj h1 (by rw [h2, hfij])
    have hsub : ∀ x ∈ (List.range p1.length).map
        (fun i => (chf.getD i none).getD (p2.getD i 0)), x ∈ p1 := by
      intro x hx
      rw [List.mem_map] at hx
      obtain ⟨i, hi, rfl⟩ := hx
      rw [List.mem_range] at hi
      rcases h1 : chf.getD i none with _ | v
      · simp only [Option.getD_none]
        have : p2.getD i 0 ∈ p2 := by
          rw [List.getD_eq_getElem _ _ (by omega : i < p2.length)]
          exact List.getElem_mem _
        exact hperm.mem_iff.mp this
      · simp only [Option.getD_some]
        rcases hvalsf v (mem_of_getD_some h1) with ⟨w, hw, hval⟩ | ⟨i', hi', hval⟩
        · rw [hval, List.getD_eq_getElem _ _ (by omega : w < p1.length)]
          exact List.getElem_mem _
        · have hi'b : i' < b := by
            rcases hi' with h | h
            · simp at h
            · exact ((hmemrange i').mp h).2
          rw [hval]
          have : p2.getD i' 0 ∈ p2 := by
            rw [List.getD_eq_getElem _ _ (by omega : i' < p2.length)]
            exact List.getElem_mem _
          exact hperm.mem_iff.mp this
    have hsubperm := List.subperm_of_subset hnodupc hsub
    exact hsubperm.perm_of_length_le (by simp)

/-- C9: every route built by the ACS engine's route builder (started at any
    city, with the next city always chosen by the embedded
    `_choose_next_city` rule) is a permutation of `{0,…,N−1}` of length `N`,
    and for every pair of equal-length permutation parents over the same
    element set and valid cut indices, each of the two children returned by
    OX, PMX and CX is a permutation of its respective parent's element set
    (CX returns exact parent copies, which are in particular permutations). -/
theorem tours_are_permutations
    (n start : ℕ) (q0 : ℚ) (qs rs : ℕ → ℚ) (cs : ℕ → ℕ) (w : ℕ → ℕ → ℚ)
    (a b : ℕ) (p1 p2 : List ℕ)
    (hstart : start < n) (hnd : p1.Nodup) (hperm : p2.Perm p1)
    (hab : a ≤ b) (hb : b ≤ p1.length) :
    (buildRoute n start
      (fun s cur l => chooseNextCity (qs s) q0 (w cur) (rs s) (cs s) l)).Perm
        (List.range n) ∧
    (oxChild a b p1 p2).Perm p1 ∧ (oxChild a b p2 p1).Perm p2 ∧
    (∃ c1, pmxChild a b p1 p2 = some c1 ∧ c1.Perm p1) ∧
    (∃ c2, pmxChild a b p2 p1 = some c2 ∧ c2.Perm p2) ∧
    (∃ d1, cxChild p1 p2 = some d1 ∧ d1.Perm p1) ∧
    (∃ d2, cxChild p2 p1 = some d2 ∧ d2.Perm p2) := by
  have hnd2 : p2.Nodup := hperm.nodup_iff.mpr hnd
  have hb2 : b ≤ p2.length := by rw [hperm.length_eq]; exact hb
  exact ⟨buildRoute_perm n start _ hstart
      (fun s cur l hl => chooseNextCity_mem (qs s) q0 (w cur) (rs s) (cs s) l hl),
    oxChild_perm a b p1 p2 hnd hperm hab hb,
    oxChild_perm a b p2 p1 hnd2 hperm.symm hab hb2,
    pmxChild_perm a b p1 p2 hnd hperm hab hb,
    pmxChild_perm a b p2 p1 hnd2 hperm.symm hab hb2,
    ⟨p1, cxChild_eq_parent p1 p2 hnd hperm, List.Perm.refl p1⟩,
    ⟨p2, cxChild_eq_parent p2 p1 hnd2 hperm.symm, List.Perm.refl p2⟩⟩

/-- Concrete witness for C9: dimension 4, start city 2, window `[1,3)`,
    parents `[0,1,2,3]` and `[1,0,3,2]`. -/
theorem tours_are_permutations_witness :
    2 < 4 ∧ [0, 1, 2, 3].Nodup ∧ [1, 0, 3, 2].Perm [0, 1, 2, 3] ∧
    ((buildRoute 4 2
      (fun s cur l => chooseNextCity 0 (1/2) (fun _ => 1) 0 0 l)).Perm
        (List.range 4) ∧
    (oxChild 1 3 [0, 1, 2, 3] [1, 0, 3, 2]).Perm [0, 1, 2, 3] ∧
    (oxChild 1 3 [1, 0, 3, 2] [0, 1, 2, 3]).Perm [1, 0, 3, 2] ∧
    (∃ c1, pmxChild 1 3 [0, 1, 2, 3] [1, 0, 3, 2] = some c1 ∧
      c1.Perm [0, 1, 2, 3]) ∧
    (∃ c2, pmxChild 1 3 [1, 0, 3, 2] [0, 1, 2, 3] = some c2 ∧
      c2.Perm [1, 0, 3, 2]) ∧
    (∃ d1, cxChild [0, 1, 2, 3] [1, 0, 3, 2] = some d1 ∧
      d1.Perm [0, 1, 2, 3]) ∧
    (∃ d2, cxChild [1, 0, 3, 2] [0, 1, 2, 3] = some d2 ∧
      d2.Perm [1, 0, 3, 2])) :=
  ⟨by decide, by decide, by decide,
    tours_are_permutations 4 2 (1/2) (fun _ => 0) (fun _ => 0) (fun _ => 0)
      (fun _ _ => 1) 1 3 [0, 1, 2, 3] [1, 0, 3, 2]
      (by decide) (by decide) (by decide) (by decide) (by decide)⟩
